import Mathlib

/-!
Verification of the Extract2MD conversion pipeline
(`src/converters/Extract2MDConverter.js`, `src/utils/OutputParser.js`,
`src/utils/ConfigValidator.js`).

JavaScript strings are modelled as `List Char`; each JS regular-expression
transformation used by the code is implemented as an executable Lean function
mirroring the JS semantics (global scan, leftmost match, no rescanning of
replacements).
-/

namespace E2MD

/-- JS `\s` character class (ECMAScript WhiteSpace ∪ LineTerminator). -/
def jsWhitespace (c : Char) : Bool :=
  c == ' ' || c == '\t' || c == '\n' || c == '\r' ||
  c == Char.ofNat 0x0B || c == Char.ofNat 0x0C ||
  c == Char.ofNat 0xA0 || c == Char.ofNat 0x1680 ||
  (0x2000 ≤ c.toNat && c.toNat ≤ 0x200A) ||
  c == Char.ofNat 0x2028 || c == Char.ofNat 0x2029 ||
  c == Char.ofNat 0x202F || c == Char.ofNat 0x205F ||
  c == Char.ofNat 0x3000 || c == Char.ofNat 0xFEFF

/-- The character class of the whitespace-collapse rule
`[\s  -   　]` (source line 644). -/
def collapseWsClass (c : Char) : Bool :=
  jsWhitespace c || c == Char.ofNat 0xA0 ||
  (0x2000 ≤ c.toNat && c.toNat ≤ 0x200A) ||
  c == Char.ofNat 0x202F || c == Char.ofNat 0x205F || c == Char.ofNat 0x3000

/-- ASCII `[A-Z]`. -/
def isUpperAZ (c : Char) : Bool := 'A' ≤ c && c ≤ 'Z'

/-- ASCII `[a-z]`. -/
def isLowerAZ (c : Char) : Bool := 'a' ≤ c && c ≤ 'z'

/-- ASCII `[0-9]` (JS `\d`). -/
def isDigit09 (c : Char) : Bool := '0' ≤ c && c ≤ '9'

/-- JS `String.prototype.trimEnd`. -/
def jsTrimEnd (l : List Char) : List Char :=
  (l.reverse.dropWhile jsWhitespace).reverse

/-- JS `String.prototype.trim`. -/
def jsTrim (l : List Char) : List Char :=
  jsTrimEnd (l.dropWhile jsWhitespace)

/-- `Array.prototype.join(' ')`. -/
def joinSpace (ls : List (List Char)) : List Char :=
  List.intercalate (' ' :: []) ls

/-- `Array.prototype.join('\n')`. -/
def joinNl (ls : List (List Char)) : List Char :=
  List.intercalate ('\n' :: []) ls

/-- Substring test (used to state containment properties). -/
def containsSub (pat : List Char) : List Char → Bool
  | [] => pat.isPrefixOf []
  | c :: t => pat.isPrefixOf (c :: t) || containsSub pat t

/-! ### Normalization rule engine (`_postProcessText`, source lines 627-684) -/

/-- Global replacement of every character matching a one-character class
(JS `text.replace(/[cls]/g, rep)`). -/
def replaceCharClass (cls : Char → Bool) (rep : List Char) : List Char → List Char
  | [] => []
  | c :: t =>
    if cls c then rep ++ replaceCharClass cls rep t
    else c :: replaceCharClass cls rep t

/-- Worker for `collapseRuns`; `inRun` records whether the previous character
belonged to the current class run (already replaced). -/
def collapseRunsAux (cls : Char → Bool) (rep : List Char) :
    Bool → List Char → List Char
  | _, [] => []
  | inRun, c :: t =>
    if cls c then
      if inRun then collapseRunsAux cls rep true t
      else rep ++ collapseRunsAux cls rep true t
    else c :: collapseRunsAux cls rep false t

/-- Global replacement of every maximal run of class characters
(JS `text.replace(/[cls]+/g, rep)`). -/
def collapseRuns (cls : Char → Bool) (rep : List Char) (l : List Char) : List Char :=
  collapseRunsAux cls rep false l

/-- JS `String.prototype.replace` with a *string* pattern: replaces only the
first occurrence of the literal pattern (the replacement is taken literally;
the applied rules contain no `$` substitution sequences). -/
def replaceFirstStr (pat rep : List Char) : List Char → List Char
  | [] => []
  | c :: t =>
    if pat.isPrefixOf (c :: t) then rep ++ (c :: t).drop pat.length
    else c :: replaceFirstStr pat rep t

/-- One global-scan step for `/([A-Z][a-z]+)([A-Z][a-z]+)/g → '$1 $2'`:
try to match at the head; on success return the replaced text and the rest of
the input after the match. Greedy `[a-z]+` never needs backtracking here
because the character stopping a lowercase run is never lowercase. -/
def pascalPairMatch (l : List Char) : Option (List Char × List Char) :=
  match l with
  | c1 :: t1 =>
    if isUpperAZ c1 then
      let low1 := t1.takeWhile isLowerAZ
      if low1 = [] then none else
      match t1.drop low1.length with
      | c2 :: t2 =>
        if isUpperAZ c2 then
          let low2 := t2.takeWhile isLowerAZ
          if low2 = [] then none else
          some (c1 :: low1 ++ ' ' :: c2 :: low2, t2.drop low2.length)
        else none
      | [] => none
    else none
  | [] => none

/-- One global-scan step for `/([a-z])([A-Z][a-z]+)/g → '$1 $2'`. -/
def lowerUpperMatch (l : List Char) : Option (List Char × List Char) :=
  match l with
  | c1 :: t1 =>
    if isLowerAZ c1 then
      match t1 with
      | c2 :: t2 =>
        if isUpperAZ c2 then
          let low2 := t2.takeWhile isLowerAZ
          if low2 = [] then none else
          some (c1 :: ' ' :: c2 :: low2, t2.drop low2.length)
        else none
      | [] => none
    else none
  | [] => none

/-- Fueled global scan applying `step` at each position left to right,
resuming after each match (JS global-regex replacement). -/
def globalScan (step : List Char → Option (List Char × List Char)) :
    Nat → List Char → List Char
  | 0, l => l
  | _, [] => []
  | fuel + 1, c :: t =>
    match step (c :: t) with
    | some (out, rest) => out ++ globalScan step fuel rest
    | none => c :: globalScan step fuel t

/-- `text.replace(/([A-Z][a-z]+)([A-Z][a-z]+)/g, '$1 $2')`. -/
def applyPascalPair (l : List Char) : List Char :=
  globalScan pascalPairMatch l.length l

/-- `text.replace(/([a-z])([A-Z][a-z]+)/g, '$1 $2')`. -/
def applyLowerUpper (l : List Char) : List Char :=
  globalScan lowerUpperMatch l.length l

/-- `/\r\n/g → '\n'`. -/
def replaceCRLF : List Char → List Char
  | [] => []
  | [c] => [c]
  | c :: d :: t =>
    if c = '\r' ∧ d = '\n' then '\n' :: replaceCRLF t
    else c :: replaceCRLF (d :: t)

/-- Worker for `collapseNewlines3`; `pending` counts the newline run read so
far. -/
def collapseNl3Aux : Nat → List Char → List Char
  | pending, [] => if 3 ≤ pending then '\n' :: '\n' :: [] else List.replicate pending '\n'
  | pending, c :: t =>
    if c = '\n' then collapseNl3Aux (pending + 1) t
    else
      (if 3 ≤ pending then '\n' :: '\n' :: [] else List.replicate pending '\n') ++
        c :: collapseNl3Aux 0 t

/-- `/\n{3,}/g → '\n\n'`: every maximal run of 3 or more newlines becomes
exactly two. -/
def collapseNewlines3 (l : List Char) : List Char :=
  collapseNl3Aux 0 l

/-- The regex patterns occurring in the rules that `_postProcessText` applies.
The two PascalCase patterns carry the capture-group replacement template
`'$1 $2'` in their application functions. -/
inductive RePat
  | charClass (cls : Char → Bool)
  | classPlus (cls : Char → Bool)
  | pascalPair
  | lowerUpper

/-- A rule's `find` property: a regular expression or a plain string. -/
inductive FindPat
  | re (p : RePat)
  | str (pat : List Char)

/-- A caller-supplied post-process rule as the JS code sees it: `find` is
`none` when the property is absent/falsy, `replace` is `none` when the
property is not a string. -/
structure JsRule where
  find : Option FindPat
  replace : Option (List Char)

/-- The guard `rule.find && typeof rule.replace === 'string'`
(source line 663). -/
def ruleWellFormed (r : JsRule) : Bool :=
  r.find.isSome && r.replace.isSome

/-- The test `rule.find instanceof RegExp` (source line 664). -/
def ruleIsRegex (r : JsRule) : Bool :=
  match r.find with
  | some (FindPat.re _) => true
  | _ => false

/-- Application of one well-formed rule (`cleanedText.replace(rule.find,
rule.replace)`). For the PascalCase patterns the `'$1 $2'` template is
interpreted by the dedicated scanners. Malformed rules are never applied. -/
def applyRule (text : List Char) (r : JsRule) : List Char :=
  match r.find, r.replace with
  | some (FindPat.re (RePat.charClass cls)), some rep => replaceCharClass cls rep text
  | some (FindPat.re (RePat.classPlus cls)), some rep => collapseRuns cls rep text
  | some (FindPat.re RePat.pascalPair), some _ => applyPascalPair text
  | some (FindPat.re RePat.lowerUpper), some _ => applyLowerUpper text
  | some (FindPat.str pat), some rep => replaceFirstStr pat rep text
  | _, _ => text

/-- Helper building a well-formed regex rule. -/
def mkReRule (p : RePat) (rep : List Char) : JsRule :=
  ⟨some (FindPat.re p), some rep⟩

def softHyphen : Char := Char.ofNat 0xAD

/-- `[‘’]`. -/
def singleQuoteCls (c : Char) : Bool :=
  c == Char.ofNat 0x2018 || c == Char.ofNat 0x2019

/-- `[“”]`. -/
def doubleQuoteCls (c : Char) : Bool :=
  c == Char.ofNat 0x201C || c == Char.ofNat 0x201D

/-- `[•‣◦⁃∙●○⦁☙❥]`. -/
def bulletCls (c : Char) : Bool :=
  c == Char.ofNat 0x2022 || c == Char.ofNat 0x2023 || c == Char.ofNat 0x25E6 ||
  c == Char.ofNat 0x2043 || c == Char.ofNat 0x2219 || c == Char.ofNat 0x25CF ||
  c == Char.ofNat 0x25CB || c == Char.ofNat 0x2981 || c == Char.ofNat 0x2619 ||
  c == Char.ofNat 0x2765

/-- `[–—]`. -/
def dashCls (c : Char) : Bool :=
  c == Char.ofNat 0x2013 || c == Char.ofNat 0x2014

/-- The fixed `defaultRules` array (source lines 633-645). -/
def defaultRules : List JsRule :=
  [ mkReRule (RePat.charClass (· == Char.ofNat 0xFB00)) ('f' :: 'f' :: []),
    mkReRule (RePat.charClass (· == Char.ofNat 0xFB01)) ('f' :: 'i' :: []),
    mkReRule (RePat.charClass (· == Char.ofNat 0xFB02)) ('f' :: 'l' :: []),
    mkReRule (RePat.charClass (· == Char.ofNat 0xFB03)) ('f' :: 'f' :: 'i' :: []),
    mkReRule (RePat.charClass (· == Char.ofNat 0xFB04)) ('f' :: 'f' :: 'l' :: []),
    mkReRule (RePat.charClass singleQuoteCls) (Char.ofNat 39 :: []),
    mkReRule (RePat.charClass doubleQuoteCls) (Char.ofNat 34 :: []),
    mkReRule (RePat.charClass bulletCls) ('-' :: []),
    mkReRule (RePat.charClass dashCls) ('-' :: []),
    mkReRule (RePat.charClass (· == softHyphen)) [],
    mkReRule (RePat.classPlus collapseWsClass) (' ' :: []) ]

/-- The two rules appended when `config.processing.splitPascalCase` is set
(source lines 649-652); their JS replacement string is `'$1 $2'`. -/
def pascalRules : List JsRule :=
  [ mkReRule RePat.pascalPair ('$' :: '1' :: ' ' :: '$' :: '2' :: []),
    mkReRule RePat.lowerUpper ('$' :: '1' :: ' ' :: '$' :: '2' :: []) ]

/-- `_postProcessText` (source lines 627-684): default rules (plus the
PascalCase rules when enabled) followed by the caller-supplied rules; the
well-formed rules are partitioned into string-pattern rules (applied first)
and regex rules (applied second), then `\r\n` normalization, collapse of 3+
newlines and a final trim. -/
def postProcessText (splitPascal : Bool) (custom : List JsRule)
    (text : List Char) : List Char :=
  if text = [] then []
  else
    let base := if splitPascal then defaultRules ++ pascalRules else defaultRules
    let allRules := base ++ custom
    let wf := allRules.filter ruleWellFormed
    let strRules := wf.filter (fun r => !ruleIsRegex r)
    let reRules := wf.filter ruleIsRegex
    let t1 := strRules.foldl applyRule text
    let t2 := reRules.foldl applyRule t1
    jsTrim (collapseNewlines3 (replaceCRLF t2))

/-- Modelled from the spec: the rule engine the specification describes, which
"must preserve declared rule order exactly": the same rules, guard and final
passes as `postProcessText`, but with the well-formed rules applied in one
pass in their declared order. Used to compare the code against the spec's
ordering requirement. -/
def postProcessTextDeclaredOrder (splitPascal : Bool) (custom : List JsRule)
    (text : List Char) : List Char :=
  if text = [] then []
  else
    let base := if splitPascal then defaultRules ++ pascalRules else defaultRules
    let allRules := base ++ custom
    let wf := allRules.filter ruleWellFormed
    let t1 := wf.foldl applyRule text
    jsTrim (collapseNewlines3 (replaceCRLF t1))

/-- Progress events emitted through the `progressCallback` channel. Only the
events needed by the verified properties are distinguished. -/
inductive Ev
  | scenario5Start
  | llmInitAttempt
  | llmGenerateAttempt
  | scenario5Complete
  | cleanupWebllm
  | cleanupComplete
  | ocrPageProcess (currentPage totalPages : Nat)
  | ocrPageWarning (currentPage : Nat)
  deriving DecidableEq, Repr

/-- `_postProcessText` together with the progress events it emits: the source
function (lines 627-684) contains no `progressCallback` call, so its event
trace is empty on every input. -/
def postProcessTextT (splitPascal : Bool) (custom : List JsRule)
    (text : List Char) : List Char × List Ev :=
  (postProcessText splitPascal custom text, [])

/-! ### Markdown synthesis engine (`_convertToMarkdown`, source lines 689-807) -/

/-- `/[.,;:!?]$/.test(trimmedLine)` (source line 733). -/
def endsPunct (l : List Char) : Bool :=
  match l.getLast? with
  | some c => c == '.' || c == ',' || c == ';' || c == ':' || c == '!' || c == '?'
  | none => false

/-- `isAllCapsLine` (source lines 734-736): length in (2,80), matches
`^[A-Z\s\d\W]*[A-Z][A-Z\s\d\W]*$`, contains `[A-Z]`, and is not `^\d+$`.
Without the unicode flag, JS `\W` is `[^A-Za-z0-9_]`, so the bracket class
`[A-Z\s\d\W]` admits every character except ASCII lowercase letters and
underscore; the regex is then equivalent to "no lowercase/underscore and at
least one uppercase letter" (which also subsumes the separate `/[A-Z]/`
test). -/
def isAllCapsLine (t : List Char) : Bool :=
  2 < t.length && t.length < 80 &&
  t.all (fun c => !(isLowerAZ c || c == '_')) &&
  t.any isUpperAZ &&
  !(!t.isEmpty && t.all isDigit09)

/-- `/\S\s{2,}\S/.test(originalLine)` (source line 751): somewhere in the
line, a non-whitespace character, then two or more whitespace characters,
then a non-whitespace character. -/
def hasMultipleSpacesBetweenWords : List Char → Bool
  | c1 :: c2 :: c3 :: t =>
    (!jsWhitespace c1 && jsWhitespace c2 && jsWhitespace c3 &&
      match (t.dropWhile jsWhitespace).head? with
      | some d => !jsWhitespace d
      | none => false) ||
    hasMultipleSpacesBetweenWords (c2 :: c3 :: t)
  | _ => false

/-- Worker for `bigWsRuns`; `run` is the length of the whitespace run read so
far. -/
def bigWsRunsAux : Nat → List Char → Nat
  | run, [] => if 2 ≤ run then 1 else 0
  | run, c :: t =>
    if jsWhitespace c then bigWsRunsAux (run + 1) t
    else (if 2 ≤ run then 1 else 0) + bigWsRunsAux 0 t

/-- Number of maximal whitespace runs of length ≥ 2 in the line (the
separators of `originalLine.split(/\s{2,}/)`). -/
def bigWsRuns (l : List Char) : Nat :=
  bigWsRunsAux 0 l

/-- `originalLine.split(/\s{2,}/).length > 2 && originalLine.length > 10`
(source line 752): splitting on maximal whitespace runs of length ≥ 2 yields
one more segment than there are such runs. -/
def hasMultipleColumnsBySpaces (l : List Char) : Bool :=
  2 < bigWsRuns l + 1 && 10 < l.length

/-- The table/code-candidate test (source lines 751-754). -/
def spaceTest (l : List Char) : Bool :=
  hasMultipleSpacesBetweenWords l || hasMultipleColumnsBySpaces l

/-- `nextLineIsBlankOrEndOfFile` for the remaining lines. -/
def nextLineBlank : List (List Char) → Bool
  | [] => true
  | h :: _ => jsTrim h == []

/-- Classification of one input line, in the branch order of the loop body
(source lines 726-761). `l` is the original line, `nextBlank` is
`nextLineIsBlankOrEndOfFile`. -/
inductive LineTag
  | blank
  | heading
  | table
  | prose
  deriving DecidableEq, Repr

/-- `isShortLine` (source line 732). -/
def isShortLine (t : List Char) : Bool :=
  decide (0 < t.length) && decide (t.length < 80)

/-- `noPunctuationEnd` (source line 733). -/
def noPunctEnd (t : List Char) : Bool :=
  isShortLine t && !endsPunct t

def classifyLine (l : List Char) (nextBlank : Bool) : LineTag :=
  if jsTrim l = [] then LineTag.blank
  else if isAllCapsLine (jsTrim l) ||
      (isShortLine (jsTrim l) && noPunctEnd (jsTrim l) && nextBlank &&
        decide (1 < (jsTrim l).length)) then
    LineTag.heading
  else if spaceTest l then LineTag.table
  else LineTag.prose

/-- The mutable state of the synthesis loop. -/
structure MDState where
  out : List (List Char)
  para : List (List Char)
  table : List (List Char)
  inTable : Bool

def initMDState : MDState := ⟨[], [], [], false⟩

/-- `_addSeparatorLine` (source lines 774-779). -/
def addSeparatorLine (out : List (List Char)) : List (List Char) :=
  if out ≠ [] ∧ out.getLast? ≠ some [] then out ++ [[]] else out

/-- `flushCurrentParagraph` (source lines 698-705). -/
def flushParagraph (st : MDState) : MDState :=
  if st.para = [] then st
  else
    { st with
      out := addSeparatorLine (st.out ++ [jsTrim (joinSpace st.para)]),
      para := [] }

/-- The code-fence string. -/
def fence : List Char := ("```").data

/-- `flushPotentialTableBlock` (source lines 707-720). -/
def flushTableBlock (st : MDState) : MDState :=
  if st.table = [] then { st with inTable := false }
  else
    let pushed :=
      if 2 ≤ st.table.length then
        st.out ++ [fence] ++ st.table.map jsTrimEnd ++ [fence]
      else st.out ++ [jsTrim (joinSpace st.table)]
    { out := addSeparatorLine pushed, para := st.para, table := [], inTable := false }

/-- `if (inPotentialTableBlock) flushPotentialTableBlock()`. -/
def flushTableIfIn (st : MDState) : MDState :=
  if st.inTable then flushTableBlock st else st

/-- In the heading branch, whether the following line is consumed: the code's
`nextLineIsBlankOrEndOfFile && inputLines[i + 1] && inputLines[i + 1].trim()
=== ''` is true exactly when the next line exists, is a *truthy* (non-empty)
string, and trims to empty. -/
def headingSkip : List (List Char) → Bool
  | r0 :: _ => !r0.isEmpty && (jsTrim r0).isEmpty
  | [] => false

/-- The main loop of `_convertToMarkdown` (source lines 722-762). -/
def mdLoop (st : MDState) : List (List Char) → MDState
  | [] => st
  | l :: rest =>
    match classifyLine l (nextLineBlank rest) with
    | LineTag.blank => mdLoop (flushParagraph (flushTableIfIn st)) rest
    | LineTag.heading =>
      let st1 := flushParagraph (flushTableIfIn st)
      let st2 := { st1 with
        out := addSeparatorLine (st1.out ++ [('#' :: ' ' :: []) ++ jsTrim l]) }
      match rest with
      | [] => st2
      | r0 :: rest' =>
        if headingSkip (r0 :: rest') then mdLoop st2 rest'
        else mdLoop st2 (r0 :: rest')
    | LineTag.table =>
      let st1 := flushParagraph st
      mdLoop { st1 with inTable := true, table := st1.table ++ [l] } rest
    | LineTag.prose =>
      let st1 := flushTableIfIn st
      mdLoop { st1 with para := st1.para ++ [jsTrim l] } rest

/-- The flushes after the loop (source lines 764-765). -/
def endFlush (st : MDState) : MDState :=
  flushParagraph (flushTableIfIn st)

/-- Worker for `linesOf`; `acc` is the reversed current line. -/
def linesOfAux (acc : List Char) : List Char → List (List Char)
  | [] => [acc.reverse]
  | c :: t =>
    if c = '\n' then acc.reverse :: linesOfAux [] t
    else linesOfAux (c :: acc) t

/-- `rawText.split(/\n/)` (source line 692): `""` splits to `[""]`,
separators at the ends produce empty segments. -/
def linesOf (s : List Char) : List (List Char) :=
  linesOfAux [] s

/-- The `markdownOutputLines` array produced for a raw input string. -/
def convertToMarkdownLines (raw : List Char) : List (List Char) :=
  (endFlush (mdLoop initMDState (linesOf raw))).out

/-- The per-line normalization stage of `_normalizeMarkdownNewlines`
(source lines 786-800): keep at most one consecutive blank line, strip
trailing whitespace from non-blank lines. `consec` counts the blank lines
seen immediately before. -/
def normalizeLinesAux : Nat → List (List Char) → List (List Char)
  | _, [] => []
  | consec, l :: rest =>
    if jsTrim l = [] then
      if consec + 1 ≤ 1 then [] :: normalizeLinesAux (consec + 1) rest
      else normalizeLinesAux (consec + 1) rest
    else jsTrimEnd l :: normalizeLinesAux 0 rest

/-- `_normalizeMarkdownNewlines` (source lines 784-807). -/
def normalizeMarkdownNewlines (lines : List (List Char)) : List Char :=
  jsTrim (collapseNewlines3 (joinNl (normalizeLinesAux 0 lines)))

/-- `_convertToMarkdown` (source lines 689-769). -/
def convertToMarkdown (raw : List Char) : List Char :=
  normalizeMarkdownNewlines (convertToMarkdownLines raw)

/-- The result of `quickConvertOnly` / `highAccuracyConvertOnly` as a function
of the raw extracted text, under the default configuration
(`splitPascalCase: false`, `postProcessRules: []`): post-processing followed
by Markdown synthesis (source lines 209, 230 and 379, 415). -/
def convertPipeline (raw : List Char) : List Char :=
  convertToMarkdown (postProcessText false [] raw)

/-! ### Output cleanup (`OutputParser.js`) -/

def thinkOpenTag : List Char :=
  '<' :: 't' :: 'h' :: 'i' :: 'n' :: 'k' :: '>' :: []

def thinkCloseTag : List Char :=
  '<' :: '/' :: 't' :: 'h' :: 'i' :: 'n' :: 'k' :: '>' :: []

/-- Consume the `\n?\n?` part of the think regex: up to two newlines. -/
def dropNl2 : List Char → List Char
  | '\n' :: '\n' :: t => t
  | '\n' :: t => t
  | t => t

/-- Find the first `</think>` in the input; on success return the input
after the closing tag and after the `\n?\n?` that follows it (the text
before the tag is part of the removed match). -/
def findThinkClose : List Char → Option (List Char)
  | [] => none
  | c :: t =>
    if thinkCloseTag.isPrefixOf (c :: t) then
      some (dropNl2 ((c :: t).drop thinkCloseTag.length))
    else findThinkClose t

/-- Fueled scan for `rawOutput.replace(/<think>.*?<\/think>\n?\n?/gs, '')`
(source `OutputParser.js` lines 138, 191): at the first `<think>`, the
non-greedy `.*?` runs to the first following `</think>`; if none exists the
regex can never match again and the remainder is kept unchanged. -/
def removeThinkGo : Nat → List Char → List Char
  | 0, l => l
  | _, [] => []
  | fuel + 1, c :: t =>
    if thinkOpenTag.isPrefixOf (c :: t) then
      match findThinkClose ((c :: t).drop thinkOpenTag.length) with
      | some rest => removeThinkGo fuel rest
      | none => c :: t
    else c :: removeThinkGo fuel t

/-- The global think-block removal. -/
def removeThinkCore (l : List Char) : List Char :=
  removeThinkGo l.length l

/-- `cleaned.replace(/^\s*\n+/, '')` (source `OutputParser.js` line 194):
if the maximal leading whitespace run contains a newline, remove the prefix
up to and including its last newline. -/
def stripLeadingBlank (l : List Char) : List Char :=
  let w := l.takeWhile jsWhitespace
  if w.contains '\n' then
    (w.reverse.takeWhile (· ≠ '\n')).reverse ++ l.drop w.length
  else l

/-- `removeThinkingBlocks` (source `OutputParser.js` lines 189-197). -/
def removeThinkingBlocks (l : List Char) : List Char :=
  stripLeadingBlank (removeThinkCore l)

/-- Scanner applying a matcher only at line starts (JS `^` with the `m`
flag): on failure the engine advances one character; `^` matches at the
start of input and immediately after each `\n`. -/
def lineStartGo (matchAt : List Char → Option (List Char × List Char)) :
    Nat → Bool → List Char → List Char
  | 0, _, s => s
  | _, _, [] => []
  | fuel + 1, atStart, c :: t =>
    if atStart then
      match matchAt (c :: t) with
      | some (out, rest) => out ++ lineStartGo matchAt fuel false rest
      | none => c :: lineStartGo matchAt fuel (c = '\n') t
    else c :: lineStartGo matchAt fuel (c = '\n') t

/-- Matcher for `/^(#{1,6})\s*(.+)$/gm → '$1 $2'`. `#{1,6}` takes at most
six hashes; the greedy `\s*` (which may cross newlines) backtracks just far
enough for `(.+)` to own at least one non-newline character. -/
def headerSpacingAt (s : List Char) : Option (List Char × List Char) :=
  let hs := s.takeWhile (· = '#')
  if hs.isEmpty then none
  else
    let h := min 6 hs.length
    let afterH := s.drop h
    let w := afterH.takeWhile jsWhitespace
    let kOpt : Option Nat :=
      if afterH.drop w.length ≠ [] then some w.length
      else
        let w' := w.reverse.dropWhile (· = '\n')
        if w'.isEmpty then none else some (w'.length - 1)
    match kOpt with
    | none => none
    | some k =>
      let content := (afterH.drop k).takeWhile (· ≠ '\n')
      some (s.take h ++ ' ' :: content, (afterH.drop k).drop content.length)

/-- Matcher for `/^(\s*[-*+])\s+/gm → '$1 '`. -/
def listSpacingAt (s : List Char) : Option (List Char × List Char) :=
  let w := s.takeWhile jsWhitespace
  match s.drop w.length with
  | m :: t =>
    if m = '-' ∨ m = '*' ∨ m = '+' then
      let w2 := t.takeWhile jsWhitespace
      if w2.isEmpty then none
      else some (w ++ m :: ' ' :: [], t.drop w2.length)
    else none
  | [] => none

/-- Matcher for `/^(\s*\d+\.)\s+/gm → '$1 '`. -/
def numberedSpacingAt (s : List Char) : Option (List Char × List Char) :=
  let w := s.takeWhile jsWhitespace
  let ds := (s.drop w.length).takeWhile isDigit09
  if ds.isEmpty then none
  else
    match (s.drop w.length).drop ds.length with
    | '.' :: t =>
      let w2 := t.takeWhile jsWhitespace
      if w2.isEmpty then none
      else some (w ++ ds ++ '.' :: ' ' :: [], t.drop w2.length)
    | _ => none

/-- `/[ \t]+$/gm → ''`: strip trailing spaces and tabs from every line. -/
def stripTrailingBlanks (s : List Char) : List Char :=
  joinNl ((List.splitOn '\n' s).map
    (fun l => (l.reverse.dropWhile (fun c => c = ' ' || c = '\t')).reverse))

/-- Matcher for `/```\s*\n\s*\n/g → '```\n'` (unanchored): after the fence,
the whitespace run must contain at least two newlines; the match ends at the
last newline of the run. -/
def fenceOpenAt (s : List Char) : Option (List Char × List Char) :=
  if fence.isPrefixOf s then
    let afterF := s.drop 3
    let w := afterF.takeWhile jsWhitespace
    if 2 ≤ (w.filter (· = '\n')).length then
      let tailNonNl := w.reverse.takeWhile (· ≠ '\n')
      some (fence ++ '\n' :: [], afterF.drop (w.length - tailNonNl.length))
    else none
  else none

/-- Matcher for `/\n\s*\n\s*```/g → '\n```'` (unanchored): a newline, then
whitespace containing at least one further newline, then the fence. -/
def fenceCloseAt (s : List Char) : Option (List Char × List Char) :=
  match s with
  | '\n' :: t =>
    let w := t.takeWhile jsWhitespace
    if w.contains '\n' ∧ fence.isPrefixOf (t.drop w.length) then
      some ('\n' :: fence, (t.drop w.length).drop 3)
    else none
  | _ => none

/-- `applyCleanupPatterns` (source `OutputParser.js` lines 141-157, 204-212):
the eight cleanup rules in declared order. -/
def applyCleanupPatterns (s : List Char) : List Char :=
  let s1 := collapseNewlines3 s
  let s2 := lineStartGo headerSpacingAt s1.length true s1
  let s3 := lineStartGo listSpacingAt s2.length true s2
  let s4 := lineStartGo numberedSpacingAt s3.length true s3
  let s5 := stripTrailingBlanks s4
  let s6 := replaceCRLF s5
  let s7 := globalScan fenceOpenAt s6.length s6
  globalScan fenceCloseAt s7.length s7

/-- Matcher for `/^(#{1,6}\s.+)$/gm` with replacement `'\n$1\n'`:
one to six hashes (seven or more never match), a single whitespace character
(possibly a newline), then at least one non-newline character. -/
def headerStructAt (s : List Char) : Option (List Char × List Char) :=
  let hs := s.takeWhile (· = '#')
  if hs.isEmpty || 6 < hs.length then none
  else
    match s.drop hs.length with
    | d :: t =>
      if jsWhitespace d then
        let content := t.takeWhile (· ≠ '\n')
        if content.isEmpty then none
        else some ('\n' :: (hs ++ d :: content) ++ '\n' :: [], t.drop content.length)
      else none
    | [] => none

/-- Matcher for `/^```/gm → '\n```'`. -/
def fenceLineStartAt (s : List Char) : Option (List Char × List Char) :=
  if fence.isPrefixOf s then some ('\n' :: fence, s.drop 3) else none

/-- Matcher for `/```$/gm → '```\n'` (unanchored; `$` with `m` matches at a
newline or at the end of input). -/
def fenceLineEndAt (s : List Char) : Option (List Char × List Char) :=
  if fence.isPrefixOf s ∧ (s.drop 3 = [] ∨ (s.drop 3).head? = some '\n') then
    some (fence ++ '\n' :: [], s.drop 3)
  else none

/-- `ensureMarkdownStructure` (source `OutputParser.js` lines 219-241). The
list-spacing pass (lines 232-235) is the identity: its pattern is anchored
at `^` under the `m` flag, so the character before any match site is either
absent or `'\n'`, and the replacement function then returns the match
unchanged. -/
def ensureMarkdownStructure (s : List Char) : List Char :=
  let s1 := lineStartGo headerStructAt s.length true s
  let s2 := lineStartGo fenceLineStartAt s1.length true s1
  let s3 := globalScan fenceLineEndAt s2.length s2
  let s4 := s3
  collapseNewlines3 s4

/-- `OutputParser.parse` (source `OutputParser.js` lines 165-182). The falsy
/ non-string guard is modelled by the empty-input case. -/
def outputParse (raw : List Char) : List Char :=
  if raw = [] then []
  else jsTrim (ensureMarkdownStructure (applyCleanupPatterns (removeThinkingBlocks raw)))

/-! ### Orchestration (`combinedConvertWithLLM`, source lines 147-180, and
the OCR page loop of `_performHighAccuracyExtraction`, source lines 321-357)

The external collaborators (PDF reader, OCR worker, inference engine) are
supplied as outcome values; the orchestrator's control flow over them is the
code under verification. -/

/-- Outcomes of the asynchronous collaborators of scenario 5. -/
structure Env5 where
  /-- Result of `_performQuickExtraction` (resolved text or rejection). -/
  quickExtract : Except (List Char) (List Char)
  /-- Result of `_performHighAccuracyExtraction`. -/
  ocrExtract : Except (List Char) (List Char)
  /-- Outcome of `_initializeWebLLM` (WebGPU check plus engine init). -/
  initLLM : Except (List Char) Unit
  /-- Outcome of `webllmEngine.generate` on a given prompt. -/
  generate : List Char → Except (List Char) (List Char)
  /-- `config.systemPrompts.combinedExtraction` prompt customization. -/
  combinedPrompt : List Char

/-- `_cleanup` (source lines 812-836): emits the WebLLM cleanup event only
when an engine was created, then the completion event; never throws. -/
def cleanupEvents (engineCreated : Bool) : List Ev :=
  if engineCreated then [Ev.cleanupWebllm, Ev.cleanupComplete]
  else [Ev.cleanupComplete]

/-- `combinedConvertWithLLM` (source lines 147-180): both extractions are
awaited together (`Promise.all`); only if both resolve is the engine
initialized and asked to generate; the `finally` cleanup runs on every path.
When both extractions reject, `Promise.all` rejects with whichever rejection
settles first; the model takes the quick extraction's. -/
def combinedConvertWithLLM (env : Env5) :
    Except (List Char) (List Char) × List Ev :=
  let start := [Ev.scenario5Start]
  match env.quickExtract, env.ocrExtract with
  | Except.error e, _ =>
    (Except.error e, start ++ cleanupEvents false)
  | Except.ok _, Except.error e =>
    (Except.error e, start ++ cleanupEvents false)
  | Except.ok _, Except.ok _ =>
    match env.initLLM with
    | Except.error e =>
      (Except.error e, start ++ [Ev.llmInitAttempt] ++ cleanupEvents true)
    | Except.ok () =>
      match env.generate env.combinedPrompt with
      | Except.error e =>
        (Except.error e,
          start ++ [Ev.llmInitAttempt, Ev.llmGenerateAttempt] ++ cleanupEvents true)
      | Except.ok raw =>
        (Except.ok (outputParse raw),
          start ++ [Ev.llmInitAttempt, Ev.llmGenerateAttempt, Ev.scenario5Complete] ++
            cleanupEvents true)

/-- The per-page OCR loop of `_performHighAccuracyExtraction` (source lines
321-357): for each page a progress event; a page whose render/recognize
throws contributes a warning event and no text; a recognized page appends
its text plus a newline. Returns the accumulated `fullText` and the events,
given the 1-based number of the first page and the total page count. -/
def ocrPageLoop (total : Nat) : Nat → List (Except (List Char) (List Char)) →
    List Char × List Ev
  | _, [] => ([], [])
  | cur, p :: rest =>
    let (txt, evs) := ocrPageLoop total (cur + 1) rest
    match p with
    | Except.ok t => (t ++ '\n' :: txt, Ev.ocrPageProcess cur total :: evs)
    | Except.error _ =>
      (txt, Ev.ocrPageProcess cur total :: Ev.ocrPageWarning cur :: evs)

/-- The accumulated `fullText` of the OCR loop. -/
def ocrFullText (pages : List (Except (List Char) (List Char))) : List Char :=
  (ocrPageLoop pages.length 1 pages).1

/-- The events of the OCR loop. -/
def ocrEvents (pages : List (Except (List Char) (List Char))) : List Ev :=
  (ocrPageLoop pages.length 1 pages).2

/-- The value returned by `_performHighAccuracyExtraction` (source line 379):
the post-processed accumulated text, under the default configuration. -/
def ocrExtractionResult (pages : List (Except (List Char) (List Char))) :
    List Char :=
  postProcessText false [] (ocrFullText pages)

/-! ## Verified properties -/

/-! ### C8: scenario-5 failure isolation -/

/-- C8: in `combinedConvertWithLLM`, if the text-layer extraction or the OCR
extraction rejects, the whole call rejects with an error and the inference
engine is neither initialized nor asked to generate. -/
theorem scenario5_extraction_failure_no_llm (env : Env5)
    (h : (∃ e, env.quickExtract = Except.error e) ∨
         (∃ e, env.ocrExtract = Except.error e)) :
    (∃ e, (combinedConvertWithLLM env).1 = Except.error e) ∧
    Ev.llmInitAttempt ∉ (combinedConvertWithLLM env).2 ∧
    Ev.llmGenerateAttempt ∉ (combinedConvertWithLLM env).2 := by
  rcases hq : env.quickExtract with eq | q <;>
    rcases ho : env.ocrExtract with eo | o <;>
      simp [combinedConvertWithLLM, hq, ho, cleanupEvents]
  rcases h with ⟨e, he⟩ | ⟨e, he⟩
  · rw [hq] at he; exact absurd he (by simp)
  · rw [ho] at he; exact absurd he (by simp)

/-- Witness for C8 at a concrete environment whose quick extraction
rejects. -/
theorem scenario5_extraction_failure_no_llm_witness :
    let env : Env5 :=
      ⟨Except.error ("Invalid input: PDF file is empty.".data), Except.ok [],
        Except.ok (), fun _ => Except.ok ("ok".data), []⟩
    (∃ e, (combinedConvertWithLLM env).1 = Except.error e) ∧
    Ev.llmInitAttempt ∉ (combinedConvertWithLLM env).2 ∧
    Ev.llmGenerateAttempt ∉ (combinedConvertWithLLM env).2 :=
  scenario5_extraction_failure_no_llm _ (Or.inl ⟨_, rfl⟩)

/-! ### C3: malformed caller-supplied rules -/

/-- C3 counterexample: a malformed rule (missing `find`) together with the
em-dash default rule: `_postProcessText` still applies the remaining rules
(the em dash becomes `-`), but its event trace is empty — no warning is ever
reported through the progress channel, contradicting the claim. -/
theorem malformed_rule_no_warning_counterexample :
    (postProcessTextT false [⟨none, some ('x' :: [])⟩]
        ('a' :: Char.ofNat 0x2014 :: 'b' :: [])).2 = [] ∧
    (postProcessTextT false [⟨none, some ('x' :: [])⟩]
        ('a' :: Char.ofNat 0x2014 :: 'b' :: [])).1 = ('a' :: '-' :: 'b' :: []) := by
  constructor
  · rfl
  · decide

/-- C3 amended: a malformed caller-supplied rule is skipped silently — the
result equals the one obtained from the well-formed rules alone, no event is
emitted, and (the function being total) the conversion never throws. -/
theorem malformed_rules_skipped_silently (sp : Bool) (custom : List JsRule)
    (text : List Char) :
    (postProcessTextT sp custom text).2 = [] ∧
    (postProcessTextT sp custom text).1 =
      (postProcessTextT sp (custom.filter ruleWellFormed) text).1 := by
  refine ⟨rfl, ?_⟩
  simp only [postProcessTextT, postProcessText, List.filter_append,
    List.filter_filter, Bool.and_self]

/-! ### C2: rule application order -/

/-- C2 counterexample: with the caller-supplied *string*-pattern rule
`{ find: '-', replace: '+' }` on the input `–` (en dash would behave the
same; here U+2014), declared order would first apply the default dash rule
(giving `-`) and then the caller rule (giving `+`); the code instead applies
all string-pattern rules before all regex rules, so the caller rule sees no
`-` yet and the result is `-`. -/
theorem rule_order_counterexample :
    postProcessText false [⟨some (FindPat.str ('-' :: [])), some ('+' :: [])⟩]
        (Char.ofNat 0x2014 :: []) = ('-' :: []) ∧
    postProcessTextDeclaredOrder false
        [⟨some (FindPat.str ('-' :: [])), some ('+' :: [])⟩]
        (Char.ofNat 0x2014 :: []) = ('+' :: []) ∧
    ('-' :: [] : List Char) ≠ ('+' :: []) := by
  refine ⟨by decide, by decide, by decide⟩

/-- C2 amended: the engine preserves declared order *within* each pattern
kind, applying all string-pattern rules before all regex rules; since every
built-in rule is a regex rule, the declared order (defaults first, then
caller rules) is preserved whenever every well-formed caller rule is a regex
rule. -/
theorem rule_order_preserved_for_regex_rules (sp : Bool) (custom : List JsRule)
    (text : List Char)
    (h : ∀ r ∈ custom, ruleWellFormed r = true → ruleIsRegex r = true) :
    postProcessText sp custom text = postProcessTextDeclaredOrder sp custom text := by
  unfold postProcessText postProcessTextDeclaredOrder
  by_cases ht : text = []
  · subst ht; rfl
  · simp only [ht, if_false]
    have hbase : ∀ r ∈ (if sp then defaultRules ++ pascalRules else defaultRules),
        ruleIsRegex r = true := by
      cases sp <;> decide
    have hwf : ∀ r ∈ ((if sp then defaultRules ++ pascalRules else defaultRules) ++
        custom).filter ruleWellFormed, ruleIsRegex r = true := by
      intro r hr
      rcases List.mem_filter.mp hr with ⟨hmem, hwfr⟩
      rcases List.mem_append.mp hmem with hb | hc
      · exact hbase r hb
      · exact h r hc hwfr
    rw [List.filter_eq_self.mpr hwf,
      show (((if sp then defaultRules ++ pascalRules else defaultRules) ++
          custom).filter ruleWellFormed).filter (fun r => !ruleIsRegex r) = [] from
        List.filter_eq_nil_iff.mpr (fun r hr => by simp [hwf r hr])]
    rfl

/-- Witness for C2 amended: a caller-supplied regex rule rewriting `x` to
`y`; both orders give the same result. -/
theorem rule_order_preserved_for_regex_rules_witness :
    postProcessText false [mkReRule (RePat.charClass (· == 'x')) ('y' :: [])]
        ('a' :: 'x' :: []) =
      postProcessTextDeclaredOrder false
        [mkReRule (RePat.charClass (· == 'x')) ('y' :: [])] ('a' :: 'x' :: []) :=
  rule_order_preserved_for_regex_rules false _ _ (by decide)

/-! ### C9: per-page OCR failure isolation -/

/-- The text a page outcome contributes (successful recognitions only). -/
def okPageText : Except (List Char) (List Char) → Option (List Char)
  | Except.ok t => some t
  | Except.error _ => none

theorem ocrPageLoop_text (pages : List (Except (List Char) (List Char)))
    (total cur : Nat) :
    (ocrPageLoop total cur pages).1 =
      (pages.filterMap okPageText).foldr (fun t acc => t ++ '\n' :: acc) [] := by
  induction pages generalizing cur with
  | nil => rfl
  | cons p rest ih =>
    cases p <;> simp [ocrPageLoop, okPageText, List.filterMap_cons, ih (cur + 1)]

theorem ocrPageLoop_warning (pages : List (Except (List Char) (List Char)))
    (total cur k : Nat) (e : List Char)
    (h : pages[k]? = some (Except.error e)) :
    Ev.ocrPageWarning (cur + k) ∈ (ocrPageLoop total cur pages).2 := by
  induction pages generalizing cur k with
  | nil => simp at h
  | cons p rest ih =>
    cases k with
    | zero =>
      simp only [List.getElem?_cons_zero, Option.some.injEq] at h
      subst h
      simp [ocrPageLoop]
    | succ k =>
      simp only [List.getElem?_cons_succ] at h
      have := ih (cur + 1) k h
      cases p <;> simp only [ocrPageLoop] <;>
        · simp only [List.mem_cons]
          right
          try right
          simpa [Nat.add_assoc, Nat.add_comm 1 k] using this

theorem ocrPageLoop_process (pages : List (Except (List Char) (List Char)))
    (total cur k : Nat) (h : k < pages.length) :
    Ev.ocrPageProcess (cur + k) total ∈ (ocrPageLoop total cur pages).2 := by
  induction pages generalizing cur k with
  | nil => simp at h
  | cons p rest ih =>
    cases k with
    | zero => cases p <;> simp [ocrPageLoop]
    | succ k =>
      simp only [List.length_cons, Nat.succ_lt_succ_iff] at h
      have := ih (cur + 1) k h
      cases p <;> simp only [ocrPageLoop] <;>
        · simp only [List.mem_cons]
          right
          try right
          simpa [Nat.add_assoc, Nat.add_comm 1 k] using this

theorem ocrPageLoop_contains (pages : List (Except (List Char) (List Char)))
    (total cur k : Nat) (t : List Char)
    (h : pages[k]? = some (Except.ok t)) :
    ∃ u v, (ocrPageLoop total cur pages).1 = u ++ t ++ v := by
  induction pages generalizing cur k with
  | nil => simp at h
  | cons p rest ih =>
    cases k with
    | zero =>
      simp only [List.getElem?_cons_zero, Option.some.injEq] at h
      subst h
      exact ⟨[], '\n' :: (ocrPageLoop total (cur + 1) rest).1, by simp [ocrPageLoop]⟩
    | succ k =>
      simp only [List.getElem?_cons_succ] at h
      obtain ⟨u, v, huv⟩ := ih (cur + 1) k h
      cases p with
      | ok t0 =>
        exact ⟨t0 ++ '\n' :: u, v, by simp [ocrPageLoop, huv]⟩
      | error _ =>
        exact ⟨u, v, by simp [ocrPageLoop, huv]⟩

/-- C9 counterexample: a document whose first page fails and whose second
page is recognized as `a  b`. The *returned* text is the normalization of
the accumulated text, in which the double space has been collapsed, so the
returned text does not contain the recognized text of the successful page,
contradicting the claim as stated. -/
theorem ocr_returned_text_counterexample :
    (([Except.error ("recognize failed".data), Except.ok ("a  b".data)] :
        List (Except (List Char) (List Char)))[1]? =
      some (Except.ok ("a  b".data))) ∧
    ocrExtractionResult
        [Except.error ("recognize failed".data), Except.ok ("a  b".data)] =
      ("a b".data) ∧
    containsSub ("a  b".data)
        (ocrExtractionResult
          [Except.error ("recognize failed".data), Except.ok ("a  b".data)]) =
      false := by
  refine ⟨rfl, by decide, by decide⟩

/-- C9 amended: for every page list, the adapter emits a warning event for
each failing page (1-based index), emits a processing event for every page
— so a failing page never aborts the remaining pages — the *accumulated*
text is exactly the in-order concatenation of the successful pages' texts
(each followed by a newline), hence contains the recognized text of every
successful page, and the value returned is the normalization
(`_postProcessText`) of that accumulated text. -/
theorem ocr_page_failure_isolation (pages : List (Except (List Char) (List Char))) :
    (∀ k e, pages[k]? = some (Except.error e) →
      Ev.ocrPageWarning (k + 1) ∈ ocrEvents pages) ∧
    (∀ k, k < pages.length →
      Ev.ocrPageProcess (k + 1) pages.length ∈ ocrEvents pages) ∧
    ocrFullText pages =
      (pages.filterMap okPageText).foldr (fun t acc => t ++ '\n' :: acc) [] ∧
    (∀ (k : Nat) (t : List Char),
      pages[k]? = some ((Except.ok t : Except (List Char) (List Char))) →
      ∃ u v, ocrFullText pages = u ++ t ++ v) ∧
    ocrExtractionResult pages = postProcessText false [] (ocrFullText pages) := by
  refine ⟨?_, ?_, ?_, ?_, rfl⟩
  · intro k e h
    simpa [Nat.add_comm] using ocrPageLoop_warning pages pages.length 1 k e h
  · intro k h
    simpa [Nat.add_comm] using ocrPageLoop_process pages pages.length 1 k h
  · exact ocrPageLoop_text pages pages.length 1
  · intro k t h
    exact ocrPageLoop_contains pages pages.length 1 k t h

/-- Witness for C9 amended at the two-page document whose first page fails:
the warning for page 1 is emitted, both pages are processed, and the
accumulated text contains the second page's text. -/
theorem ocr_page_failure_isolation_witness :
    Ev.ocrPageWarning 1 ∈
      ocrEvents [Except.error ("boom".data), Except.ok ("text two".data)] ∧
    Ev.ocrPageProcess 2 2 ∈
      ocrEvents [Except.error ("boom".data), Except.ok ("text two".data)] ∧
    (∃ u v, ocrFullText [Except.error ("boom".data), Except.ok ("text two".data)] =
      u ++ ("text two".data) ++ v) :=
  ⟨(ocr_page_failure_isolation _).1 0 ("boom".data) rfl,
    (ocr_page_failure_isolation _).2.1 1 (by decide),
    (ocr_page_failure_isolation _).2.2.2.1 1 ("text two".data) rfl⟩

/-! ### C7: think-block removal -/

theorem containsSub_of_prefix {pat a : List Char} (h : pat <+: a) (ha : a ≠ []) :
    containsSub pat a = true := by
  cases a with
  | nil => exact absurd rfl ha
  | cons c t =>
    simp only [containsSub, Bool.or_eq_true]
    exact Or.inl (List.isPrefixOf_iff_prefix.mpr h)

theorem containsSub_cons_false {pat : List Char} {c : Char} {t : List Char}
    (h : containsSub pat (c :: t) = false) : containsSub pat t = false := by
  simp only [containsSub, Bool.or_eq_false_iff] at h
  exact h.2

/-- If the pattern has no nontrivial period (no proper nonempty suffix of it
is one of its prefixes) and does not occur inside `a`, then it is not a
prefix of `a ++ pat ++ r` for nonempty `a`. -/
theorem not_prefix_of_append {pat a r : List Char}
    (hper : ∀ j, j < pat.length → 0 < j → ¬ (pat.drop j <+: pat))
    (ha : a ≠ []) (hnin : containsSub pat a = false) :
    ¬ (pat <+: (a ++ (pat ++ r))) := by
  intro hpre
  have htake := List.prefix_iff_eq_take.mp hpre
  rw [List.take_append_eq_append_take] at htake
  by_cases hlen : pat.length ≤ a.length
  · have h0 : pat.length - a.length = 0 := by omega
    rw [h0, List.take_zero, List.append_nil] at htake
    have hp : pat <+: a := htake ▸ List.take_prefix _ _
    rw [ containsSub_of_prefix hp ha] at hnin
    exact absurd hnin (by simp)
  · push_neg at hlen
    have hato : a.take pat.length = a := List.take_of_length_le (by omega)
    rw [hato] at htake
    have hdrop := congrArg (List.drop a.length) htake
    rw [List.drop_append_eq_append_drop, List.drop_length, Nat.sub_self,
      List.drop_zero, List.nil_append] at hdrop
    rw [List.take_append_eq_append_take,
      show pat.length - a.length - pat.length = 0 by omega, List.take_zero,
      List.append_nil] at hdrop
    have hα : 0 < a.length := List.length_pos.mpr ha
    exact hper a.length (by omega) hα (hdrop ▸ List.take_prefix _ _)

theorem dropNl2_length (l : List Char) : (dropNl2 l).length ≤ l.length := by
  unfold dropNl2
  split
  · simp only [List.length_cons]; omega
  · simp only [List.length_cons]; omega
  · exact le_refl _

theorem findThinkClose_length {s r : List Char} (h : findThinkClose s = some r) :
    r.length + 8 ≤ s.length := by
  induction s with
  | nil => simp [findThinkClose] at h
  | cons c t ih =>
    simp only [findThinkClose] at h
    split at h
    · rename_i hpre
      have hlen : thinkCloseTag.length ≤ (c :: t).length :=
        (List.isPrefixOf_iff_prefix.mp hpre).length_le
      simp only [Option.some.injEq] at h
      subst h
      have h1 := dropNl2_length ((c :: t).drop thinkCloseTag.length)
      rw [List.length_drop] at h1
      simp only [thinkCloseTag, String.data] at hlen h1 ⊢
      simp only [List.length_cons] at hlen h1 ⊢
      omega
    · have := ih h
      simp only [List.length_cons]
      omega

/-- Unfolding lemma for `findThinkClose` on a cons cell. -/
theorem findThinkClose_cons (c : Char) (t : List Char) :
    findThinkClose (c :: t) =
      if thinkCloseTag.isPrefixOf (c :: t) then
        some (dropNl2 ((c :: t).drop thinkCloseTag.length))
      else findThinkClose t := rfl

theorem findThinkClose_append (b c' : List Char)
    (hb : containsSub thinkCloseTag b = false) :
    findThinkClose (b ++ (thinkCloseTag ++ c')) = some (dropNl2 c') := by
  induction b with
  | nil =>
    rw [List.nil_append,
      show thinkCloseTag ++ c' =
        '<' :: (('/' :: 't' :: 'h' :: 'i' :: 'n' :: 'k' :: '>' :: []) ++ c') from rfl,
      findThinkClose_cons,
      show '<' :: (('/' :: 't' :: 'h' :: 'i' :: 'n' :: 'k' :: '>' :: []) ++ c') =
        thinkCloseTag ++ c' from rfl,
      if_pos (List.isPrefixOf_iff_prefix.mpr (List.prefix_append _ _)),
      List.drop_left]
  | cons x xs ih =>
    have hnp : ¬ (thinkCloseTag <+: (x :: xs) ++ (thinkCloseTag ++ c')) :=
      not_prefix_of_append (by decide) (by simp) hb
    rw [List.cons_append, findThinkClose_cons,
      if_neg (fun hc => hnp (by
        rw [List.cons_append]
        exact List.isPrefixOf_iff_prefix.mp hc))]
    exact ih (containsSub_cons_false hb)

theorem removeThinkGo_nil (f : Nat) : removeThinkGo f [] = [] := by
  cases f <;> rfl

theorem removeThinkGo_congr :
    ∀ (n : Nat) (l : List Char) (f g : Nat), l.length ≤ n → l.length ≤ f →
      l.length ≤ g → removeThinkGo f l = removeThinkGo g l := by
  intro n
  induction n with
  | zero =>
    intro l f g hn _ _
    have : l = [] := List.length_eq_zero.mp (by omega)
    subst this
    rw [removeThinkGo_nil, removeThinkGo_nil]
  | succ n ih =>
    intro l f g hn hf hg
    cases l with
    | nil => rw [removeThinkGo_nil, removeThinkGo_nil]
    | cons c t =>
      have hlen : 1 ≤ (c :: t).length := by simp
      cases f with
      | zero => omega
      | succ f' =>
        cases g with
        | zero => omega
        | succ g' =>
          simp only [removeThinkGo]
          split
          · rename_i hpre
            cases hfc : findThinkClose ((c :: t).drop thinkOpenTag.length) with
            | none => rfl
            | some rest =>
              have h1 := findThinkClose_length hfc
              rw [List.length_drop] at h1
              have h7 : thinkOpenTag.length ≤ (c :: t).length :=
                (List.isPrefixOf_iff_prefix.mp hpre).length_le
              have h7' : thinkOpenTag.length = 7 := by decide
              simp only [List.length_cons] at *
              exact ih rest f' g' (by omega) (by omega) (by omega)
          · simp only [List.length_cons] at *
            rw [ih t f' g' (by omega) (by omega) (by omega)]

theorem removeThinkGo_fuel (l : List Char) (f : Nat) (hf : l.length ≤ f) :
    removeThinkGo f l = removeThinkCore l :=
  removeThinkGo_congr (max l.length f) l f l.length (le_max_left _ _)
    hf (le_refl _)

/-- Unfolding lemma for `removeThinkGo` with positive fuel on a cons cell. -/
theorem removeThinkGo_succ_cons (f : Nat) (c : Char) (t : List Char) :
    removeThinkGo (f + 1) (c :: t) =
      if thinkOpenTag.isPrefixOf (c :: t) then
        match findThinkClose ((c :: t).drop thinkOpenTag.length) with
        | some rest => removeThinkGo f rest
        | none => c :: t
      else c :: removeThinkGo f t := rfl

theorem removeThinkGo_step_over {a : List Char} (X : List Char) (f : Nat)
    (hnin : containsSub thinkOpenTag a = false)
    (hf : (a ++ (thinkOpenTag ++ X)).length ≤ f) :
    removeThinkGo f (a ++ (thinkOpenTag ++ X)) =
      a ++ removeThinkGo (f - a.length) (thinkOpenTag ++ X) := by
  induction a generalizing f with
  | nil => simp
  | cons c a' ih =>
    cases f with
    | zero =>
      exfalso
      simp only [List.cons_append, List.length_cons] at hf
      omega
    | succ f' =>
      have hnp : ¬ (thinkOpenTag <+: ((c :: a') ++ (thinkOpenTag ++ X))) :=
        not_prefix_of_append (by decide) (by simp) hnin
      rw [List.cons_append, removeThinkGo_succ_cons,
        if_neg (fun hc => hnp (by
          rw [List.cons_append]
          exact List.isPrefixOf_iff_prefix.mp hc)),
        ih f' (containsSub_cons_false hnin)
          (by simp only [List.cons_append, List.length_cons] at hf; omega)]
      simp only [List.length_cons, List.cons_append]
      rw [show f' + 1 - (a'.length + 1) = f' - a'.length from by omega]

/-- Removing one delimited think block: if `<think>` does not occur in the
text before the block and `</think>` does not occur in the block's body, the
removal deletes the block together with the following blank line and
continues after it. -/
theorem removeThinkCore_block (a b c : List Char)
    (ha : containsSub thinkOpenTag a = false)
    (hb : containsSub thinkCloseTag b = false) :
    removeThinkCore
        (a ++ (thinkOpenTag ++ (b ++ (thinkCloseTag ++ '\n' :: '\n' :: c)))) =
      a ++ removeThinkCore c := by
  set X := b ++ (thinkCloseTag ++ '\n' :: '\n' :: c) with hX
  set L := a ++ (thinkOpenTag ++ X) with hL
  rw [show removeThinkCore L = removeThinkGo L.length L from rfl]
  rw [removeThinkGo_step_over X L.length ha (le_refl _)]
  congr 1
  have hlen : L.length - a.length = (thinkOpenTag ++ X).length := by
    simp [hL]
  rw [hlen]
  have hgo : ∀ f', removeThinkGo (f' + 1) (thinkOpenTag ++ X) =
      removeThinkGo f' c := by
    intro f'
    rw [show thinkOpenTag ++ X =
        '<' :: (('t' :: 'h' :: 'i' :: 'n' :: 'k' :: '>' :: []) ++ X) from rfl,
      removeThinkGo_succ_cons,
      show '<' :: (('t' :: 'h' :: 'i' :: 'n' :: 'k' :: '>' :: []) ++ X) =
        thinkOpenTag ++ X from rfl,
      if_pos (List.isPrefixOf_iff_prefix.mpr (List.prefix_append _ _)),
      List.drop_left, hX, findThinkClose_append b _ hb]
    rfl
  cases hf : (thinkOpenTag ++ X).length with
  | zero => simp [thinkOpenTag] at hf
  | succ f' =>
    rw [hgo f']
    apply removeThinkGo_fuel
    have hXlen : (thinkOpenTag ++ X).length = 17 + b.length + c.length := by
      simp only [hX, thinkOpenTag, thinkCloseTag, List.length_append,
        List.length_cons, List.length_nil]
      omega
    omega

/-- C7: `OutputParser.parse` on `'<think>reasoning</think>\n\nFinal answer.'`
returns exactly `'Final answer.'`; and in general the removal pass deletes
every `<think>…</think>` delimited block together with the blank line it
leaves behind, keeping the surrounding text. -/
theorem think_block_cleanup :
    outputParse (("<think>reasoning</think>\n\nFinal answer.").data) =
      (("Final answer.").data) ∧
    (∀ a b c : List Char, containsSub thinkOpenTag a = false →
      containsSub thinkCloseTag b = false →
      removeThinkCore
          (a ++ (thinkOpenTag ++ (b ++ (thinkCloseTag ++ '\n' :: '\n' :: c)))) =
        a ++ removeThinkCore c) := by
  constructor
  · decide
  · exact removeThinkCore_block

/-- Witness for the general part of C7 at a concrete response. -/
theorem think_block_cleanup_witness :
    removeThinkCore
        ((("Intro. ").data) ++ (thinkOpenTag ++ ((("chain of thought").data) ++
          (thinkCloseTag ++ '\n' :: '\n' :: (("Answer.").data))))) =
      (("Intro. ").data) ++ removeThinkCore (("Answer.").data) :=
  think_block_cleanup.2 _ _ _ (by decide) (by decide)

/-! ### C10: the normalized text is newline-free -/

theorem replaceCharClass_mem {cls : Char → Bool} {rep l : List Char} {c : Char}
    (h : c ∈ replaceCharClass cls rep l) : (c ∈ l ∧ cls c = false) ∨ c ∈ rep := by
  induction l with
  | nil => simp [replaceCharClass] at h
  | cons a t ih =>
    simp only [replaceCharClass] at h
    by_cases ha : cls a
    · rw [if_pos ha] at h
      rcases List.mem_append.mp h with hr | hrec
      · exact Or.inr hr
      · rcases ih hrec with ⟨hm, hc⟩ | hr
        · exact Or.inl ⟨List.mem_cons_of_mem _ hm, hc⟩
        · exact Or.inr hr
    · rw [if_neg ha] at h
      rcases List.mem_cons.mp h with rfl | hrec
      · exact Or.inl ⟨List.mem_cons_self _ _, by simpa using ha⟩
      · rcases ih hrec with ⟨hm, hc⟩ | hr
        · exact Or.inl ⟨List.mem_cons_of_mem _ hm, hc⟩
        · exact Or.inr hr

theorem collapseRunsAux_mem {cls : Char → Bool} {rep : List Char} :
    ∀ {inRun : Bool} {l : List Char} {c : Char},
      c ∈ collapseRunsAux cls rep inRun l → (c ∈ l ∧ cls c = false) ∨ c ∈ rep := by
  intro inRun l
  induction l generalizing inRun with
  | nil => intro c h; simp [collapseRunsAux] at h
  | cons a t ih =>
    intro c h
    simp only [collapseRunsAux] at h
    by_cases ha : cls a
    · rw [if_pos ha] at h
      cases inRun with
      | true =>
        rcases @ih true _ (by simpa using h) with ⟨hm, hc⟩ | hr
        · exact Or.inl ⟨List.mem_cons_of_mem _ hm, hc⟩
        · exact Or.inr hr
      | false =>
        rcases List.mem_append.mp (by simpa using h) with hr | hrec
        · exact Or.inr hr
        · rcases @ih true _ hrec with ⟨hm, hc⟩ | hr
          · exact Or.inl ⟨List.mem_cons_of_mem _ hm, hc⟩
          · exact Or.inr hr
    · rw [if_neg ha] at h
      rcases List.mem_cons.mp h with rfl | hrec
      · exact Or.inl ⟨List.mem_cons_self _ _, by simpa using ha⟩
      · rcases @ih false _ hrec with ⟨hm, hc⟩ | hr
        · exact Or.inl ⟨List.mem_cons_of_mem _ hm, hc⟩
        · exact Or.inr hr

theorem replaceCRLF_mem {l : List Char} {c : Char} (h : c ∈ replaceCRLF l) :
    c ∈ l := by
  induction l using replaceCRLF.induct with
  | case1 => simp [replaceCRLF] at h
  | case2 a => simpa [replaceCRLF] using h
  | case3 a d t hcd ih =>
    rw [replaceCRLF, if_pos hcd] at h
    rcases List.mem_cons.mp h with rfl | hrec
    · simp [hcd.2]
    · simp [ih hrec]
  | case4 a d t hcd ih =>
    rw [replaceCRLF, if_neg hcd] at h
    rcases List.mem_cons.mp h with rfl | hrec
    · simp
    · simp [ih hrec]

theorem collapseNl3Aux_zero_id {l : List Char} (h : '\n' ∉ l) :
    collapseNl3Aux 0 l = l := by
  induction l with
  | nil => rfl
  | cons a t ih =>
    have ha : a ≠ '\n' := fun hc => h (hc ▸ List.mem_cons_self _ _)
    simp only [collapseNl3Aux, if_neg ha]
    simp [List.replicate, ih (fun hc => h (List.mem_cons_of_mem _ hc))]

theorem jsTrimEnd_subset {l : List Char} {c : Char} (h : c ∈ jsTrimEnd l) :
    c ∈ l := by
  unfold jsTrimEnd at h
  have := (List.dropWhile_sublist (l := l.reverse) (p := jsWhitespace)).subset
    (List.mem_reverse.mp h)
  exact List.mem_reverse.mp this

theorem jsTrim_subset {l : List Char} {c : Char} (h : c ∈ jsTrim l) : c ∈ l := by
  unfold jsTrim at h
  exact (List.dropWhile_sublist (l := l) (p := jsWhitespace)).subset
    (jsTrimEnd_subset h)

theorem pascalPairMatch_chars {l out rest : List Char}
    (h : pascalPairMatch l = some (out, rest)) :
    (∀ c ∈ out, c ∈ l ∨ c = ' ') ∧ (∀ c ∈ rest, c ∈ l) := by
  unfold pascalPairMatch at h
  cases l with
  | nil => simp at h
  | cons c1 t1 =>
    simp only at h
    split at h
    · by_cases h1 : t1.takeWhile isLowerAZ = []
      · rw [if_pos h1] at h; simp at h
      · rw [if_neg h1] at h
        cases hdrop : t1.drop (t1.takeWhile isLowerAZ).length with
        | nil => rw [hdrop] at h; simp at h
        | cons c2 t2 =>
          rw [hdrop] at h
          simp only at h
          split at h
          · by_cases h2 : t2.takeWhile isLowerAZ = []
            · rw [if_pos h2] at h; simp at h
            · rw [if_neg h2] at h
              simp only [Option.some.injEq, Prod.mk.injEq] at h
              obtain ⟨hout, hrest⟩ := h
              have ht1 : ∀ x ∈ t1.takeWhile isLowerAZ, x ∈ t1 := fun x hx =>
                (List.takeWhile_sublist _).subset hx
              have hd : ∀ x ∈ c2 :: t2, x ∈ t1 := by
                intro x hx
                rw [← hdrop] at hx
                exact (List.drop_sublist _ _).subset hx
              have ht2 : ∀ x ∈ t2.takeWhile isLowerAZ, x ∈ t2 := fun x hx =>
                (List.takeWhile_sublist _).subset hx
              constructor
              · intro c hc
                rw [← hout] at hc
                rcases List.mem_cons.mp hc with rfl | hc
                · exact Or.inl (List.mem_cons_self _ _)
                rcases List.mem_append.mp hc with hc | hc
                · exact Or.inl (List.mem_cons_of_mem _ (ht1 _ hc))
                rcases List.mem_cons.mp hc with rfl | hc
                · exact Or.inr rfl
                rcases List.mem_cons.mp hc with rfl | hc
                · exact Or.inl (List.mem_cons_of_mem _ (hd _ (List.mem_cons_self _ _)))
                · exact Or.inl (List.mem_cons_of_mem _
                    (hd _ (List.mem_cons_of_mem _ (ht2 _ hc))))
              · intro c hc
                rw [← hrest] at hc
                have : c ∈ t2 := (List.drop_sublist _ _).subset hc
                exact List.mem_cons_of_mem _ (hd _ (List.mem_cons_of_mem _ this))
          · simp at h
    · simp at h

theorem lowerUpperMatch_chars {l out rest : List Char}
    (h : lowerUpperMatch l = some (out, rest)) :
    (∀ c ∈ out, c ∈ l ∨ c = ' ') ∧ (∀ c ∈ rest, c ∈ l) := by
  unfold lowerUpperMatch at h
  cases l with
  | nil => simp at h
  | cons c1 t1 =>
    simp only at h
    split at h
    · cases t1 with
      | nil => simp at h
      | cons c2 t2 =>
        simp only at h
        split at h
        · by_cases h2 : t2.takeWhile isLowerAZ = []
          · rw [if_pos h2] at h; simp at h
          · rw [if_neg h2] at h
            simp only [Option.some.injEq, Prod.mk.injEq] at h
            obtain ⟨hout, hrest⟩ := h
            have ht2 : ∀ x ∈ t2.takeWhile isLowerAZ, x ∈ t2 := fun x hx =>
              (List.takeWhile_sublist _).subset hx
            constructor
            · intro c hc
              rw [← hout] at hc
              rcases List.mem_cons.mp hc with rfl | hc
              · exact Or.inl (List.mem_cons_self _ _)
              rcases List.mem_cons.mp hc with rfl | hc
              · exact Or.inr rfl
              rcases List.mem_cons.mp hc with rfl | hc
              · exact Or.inl (List.mem_cons_of_mem _ (List.mem_cons_self _ _))
              · exact Or.inl (List.mem_cons_of_mem _ (List.mem_cons_of_mem _
                  (ht2 _ hc)))
            · intro c hc
              rw [← hrest] at hc
              exact List.mem_cons_of_mem _ (List.mem_cons_of_mem _
                ((List.drop_sublist _ _).subset hc))
        · simp at h
    · simp at h

theorem globalScan_mem {step : List Char → Option (List Char × List Char)}
    (hstep : ∀ l out rest, step l = some (out, rest) →
      (∀ c ∈ out, c ∈ l ∨ c = ' ') ∧ (∀ c ∈ rest, c ∈ l)) :
    ∀ (fuel : Nat) (l : List Char) (c : Char),
      c ∈ globalScan step fuel l → c ∈ l ∨ c = ' ' := by
  intro fuel
  induction fuel with
  | zero =>
    intro l c h
    rw [show globalScan step 0 l = l from by cases l <;> rfl] at h
    exact Or.inl h
  | succ f ih =>
    intro l c h
    cases l with
    | nil => simp [globalScan] at h
    | cons a t =>
      simp only [globalScan] at h
      cases hs : step (a :: t) with
      | some pr =>
        obtain ⟨out, rest⟩ := pr
        rw [hs] at h
        rcases List.mem_append.mp h with ho | hrec
        · exact (hstep _ _ _ hs).1 c ho
        · rcases ih rest c hrec with hr | hr
          · exact Or.inl ((hstep _ _ _ hs).2 c hr)
          · exact Or.inr hr
      | none =>
        rw [hs] at h
        rcases List.mem_cons.mp h with rfl | hrec
        · exact Or.inl (List.mem_cons_self _ _)
        · rcases ih t c hrec with hr | hr
          · exact Or.inl (List.mem_cons_of_mem _ hr)
          · exact Or.inr hr

theorem applyPascalPair_mem {l : List Char} {c : Char}
    (h : c ∈ applyPascalPair l) : c ∈ l ∨ c = ' ' :=
  globalScan_mem (fun _ _ _ => pascalPairMatch_chars) _ _ _ h

theorem applyLowerUpper_mem {l : List Char} {c : Char}
    (h : c ∈ applyLowerUpper l) : c ∈ l ∨ c = ' ' :=
  globalScan_mem (fun _ _ _ => lowerUpperMatch_chars) _ _ _ h

/-- Unfolding the fold of the eleven default rules. -/
theorem foldl_defaultRules (t : List Char) :
    List.foldl applyRule t defaultRules =
      collapseRuns collapseWsClass (' ' :: [])
        (replaceCharClass (· == softHyphen) []
          (replaceCharClass dashCls ('-' :: [])
            (replaceCharClass bulletCls ('-' :: [])
              (replaceCharClass doubleQuoteCls (Char.ofNat 34 :: [])
                (replaceCharClass singleQuoteCls (Char.ofNat 39 :: [])
                  (replaceCharClass (· == Char.ofNat 0xFB04) ('f' :: 'f' :: 'l' :: [])
                    (replaceCharClass (· == Char.ofNat 0xFB03) ('f' :: 'f' :: 'i' :: [])
                      (replaceCharClass (· == Char.ofNat 0xFB02) ('f' :: 'l' :: [])
                        (replaceCharClass (· == Char.ofNat 0xFB01) ('f' :: 'i' :: [])
                          (replaceCharClass (· == Char.ofNat 0xFB00)
                            ('f' :: 'f' :: []) t)))))))))) := rfl

/-- Unfolding the fold of the two PascalCase rules. -/
theorem foldl_pascalRules (t : List Char) :
    List.foldl applyRule t pascalRules = applyLowerUpper (applyPascalPair t) := rfl

theorem collapseRuns_no_newline (cls : Char → Bool) (l : List Char)
    (hcls : cls '\n' = true) :
    '\n' ∉ collapseRuns cls (' ' :: []) l := by
  intro h
  rcases collapseRunsAux_mem h with ⟨_, hc⟩ | hr
  · rw [hcls] at hc; exact absurd hc (by simp)
  · simp at hr

theorem postProcessText_newline_free (sp : Bool) (text : List Char) :
    '\n' ∉ postProcessText sp [] text := by
  unfold postProcessText
  by_cases h : text = []
  · simp [h]
  · simp only [h, if_false]
    intro hmem
    have hmem2 := jsTrim_subset hmem
    set base := if sp then defaultRules ++ pascalRules else defaultRules with hbase
    have hstr : ((base ++ []).filter ruleWellFormed).filter
        (fun r => !ruleIsRegex r) = [] := by
      rw [hbase]; cases sp <;> rfl
    have hre : ((base ++ []).filter ruleWellFormed).filter ruleIsRegex = base := by
      rw [hbase]; cases sp <;> rfl
    rw [hstr, hre] at hmem2
    simp only [List.foldl_nil] at hmem2
    have hcolnl : collapseWsClass '\n' = true := by decide
    have hnl2 : '\n' ∉ List.foldl applyRule text base := by
      rw [hbase]
      cases sp
      · rw [show (if false = true then defaultRules ++ pascalRules
            else defaultRules) = defaultRules from rfl, foldl_defaultRules]
        exact collapseRuns_no_newline _ _ hcolnl
      · rw [show (if true = true then defaultRules ++ pascalRules
            else defaultRules) = defaultRules ++ pascalRules from rfl,
          List.foldl_append, foldl_defaultRules, foldl_pascalRules]
        intro hmem3
        rcases applyLowerUpper_mem hmem3 with hmem4 | hf
        · rcases applyPascalPair_mem hmem4 with hmem5 | hf
          · exact collapseRuns_no_newline _ _ hcolnl hmem5
          · exact absurd hf (by decide)
        · exact absurd hf (by decide)
    -- walk back through the final passes
    have h3 : '\n' ∉ replaceCRLF (List.foldl applyRule text base) :=
      fun hc => hnl2 (replaceCRLF_mem hc)
    rw [show collapseNewlines3 (replaceCRLF (List.foldl applyRule text base)) =
        replaceCRLF (List.foldl applyRule text base) from
      collapseNl3Aux_zero_id h3] at hmem2
    exact h3 hmem2

/-- C10: with the default (empty) caller rule list, `_postProcessText` never
returns a string containing a newline, in either PascalCase mode: the
whitespace-collapse rule replaces every whitespace run (including newlines)
by a single space, so the subsequent `\r\n` and `\n{3,}` passes are vacuous
and the Markdown synthesizer always receives single-line input. -/
theorem postProcess_no_newline (sp : Bool) (text : List Char) :
    '\n' ∉ postProcessText sp [] text :=
  postProcessText_newline_free sp text

/-! ### Facts about `jsTrim` -/

theorem dropWhile_head_false {p : Char → Bool} :
    ∀ {l : List Char} {c : Char}, (l.dropWhile p).head? = some c → p c = false := by
  intro l
  induction l with
  | nil => intro c h; simp at h
  | cons a t ih =>
    intro c h
    by_cases ha : p a
    · rw [List.dropWhile_cons_of_pos ha] at h
      exact ih h
    · rw [List.dropWhile_cons_of_neg ha] at h
      simp only [List.head?_cons, Option.some.injEq] at h
      subst h
      simpa using ha

theorem dropWhile_eq_self_of_head {p : Char → Bool} {l : List Char}
    (h : ∀ c, l.head? = some c → p c = false) : l.dropWhile p = l := by
  cases l with
  | nil => rfl
  | cons a t => exact List.dropWhile_cons_of_neg (by simp [h a rfl])

theorem jsTrimEnd_prefix (l : List Char) : jsTrimEnd l <+: l := by
  unfold jsTrimEnd
  have h := List.dropWhile_suffix (l := l.reverse) (p := jsWhitespace)
  obtain ⟨s, hs⟩ := h
  refine ⟨s.reverse, ?_⟩
  have := congrArg List.reverse hs
  rw [List.reverse_append, List.reverse_reverse] at this
  exact this

theorem jsTrim_head_not_ws {l : List Char} {c : Char}
    (h : (jsTrim l).head? = some c) : jsWhitespace c = false := by
  unfold jsTrim at h
  set y := l.dropWhile jsWhitespace with hy
  have hpre : jsTrimEnd y <+: y := jsTrimEnd_prefix y
  obtain ⟨t, ht⟩ := hpre
  have hhead : y.head? = some c := by
    rw [← ht]
    cases hcase : jsTrimEnd y with
    | nil => rw [hcase] at h; simp at h
    | cons b s =>
      rw [hcase] at h
      simp only [List.head?_cons, Option.some.injEq] at h
      subst h
      simp [hcase]
  exact dropWhile_head_false hhead

theorem jsTrim_getLast_not_ws {l : List Char} {c : Char}
    (h : (jsTrim l).getLast? = some c) : jsWhitespace c = false := by
  unfold jsTrim jsTrimEnd at h
  rw [List.getLast?_reverse] at h
  exact dropWhile_head_false h

theorem jsTrim_idem (l : List Char) : jsTrim (jsTrim l) = jsTrim l := by
  rw [show jsTrim (jsTrim l) = jsTrimEnd ((jsTrim l).dropWhile jsWhitespace)
      from rfl,
    dropWhile_eq_self_of_head (fun c hc => jsTrim_head_not_ws hc),
    show jsTrimEnd (jsTrim l) =
      ((jsTrim l).reverse.dropWhile jsWhitespace).reverse from rfl,
    dropWhile_eq_self_of_head (fun c hc => by
      rw [List.head?_reverse] at hc
      exact jsTrim_getLast_not_ws hc),
    List.reverse_reverse]

/-! ### C1: the conversion invariant -/

/-- A character that survives normalization: neither collapsible whitespace
nor a soft hyphen. -/
def goodChar (c : Char) : Bool :=
  !collapseWsClass c && !(c == softHyphen)

theorem goodChar_not_ws {c : Char} (h : goodChar c = true) :
    jsWhitespace c = false := by
  unfold goodChar at h
  unfold collapseWsClass at h
  cases hw : jsWhitespace c
  · rfl
  · rw [hw] at h; simp at h

theorem goodChar_not_class {c : Char} (h : goodChar c = true) :
    collapseWsClass c = false := by
  unfold goodChar at h
  cases hw : collapseWsClass c
  · rfl
  · rw [hw] at h; simp at h

theorem goodChar_not_softHyphen {c : Char} (h : goodChar c = true) :
    c ≠ softHyphen := by
  unfold goodChar at h
  intro hc
  subst hc
  simp at h

theorem replaceCharClass_hasGood {cls : Char → Bool} {rep l : List Char}
    (h : ∃ c ∈ l, goodChar c = true)
    (hcase : ∀ c, goodChar c = true → cls c = true → ∃ d ∈ rep, goodChar d = true) :
    ∃ c ∈ replaceCharClass cls rep l, goodChar c = true := by
  induction l with
  | nil => simp at h
  | cons a t ih =>
    obtain ⟨w, hw, hgw⟩ := h
    simp only [replaceCharClass]
    rcases List.mem_cons.mp hw with rfl | hwt
    · by_cases ha : cls w
      · obtain ⟨d, hd, hgd⟩ := hcase w hgw ha
        exact ⟨d, by rw [if_pos ha]; exact List.mem_append_left _ hd, hgd⟩
      · exact ⟨w, by rw [if_neg ha]; exact List.mem_cons_self _ _, hgw⟩
    · obtain ⟨d, hd, hgd⟩ := ih ⟨w, hwt, hgw⟩
      by_cases ha : cls a
      · exact ⟨d, by rw [if_pos ha]; exact List.mem_append_right _ hd, hgd⟩
      · exact ⟨d, by rw [if_neg ha]; exact List.mem_cons_of_mem _ hd, hgd⟩

theorem collapseRunsAux_hasGood {l : List Char} {inRun : Bool}
    (h : ∃ c ∈ l, goodChar c = true) :
    ∃ c ∈ collapseRunsAux collapseWsClass (' ' :: []) inRun l, goodChar c = true := by
  induction l generalizing inRun with
  | nil => simp at h
  | cons a t ih =>
    obtain ⟨w, hw, hgw⟩ := h
    simp only [collapseRunsAux]
    rcases List.mem_cons.mp hw with rfl | hwt
    · have ha : collapseWsClass w = false := goodChar_not_class hgw
      exact ⟨w, by rw [if_neg (by simp [ha])]; exact List.mem_cons_self _ _, hgw⟩
    · obtain ⟨d, hd, hgd⟩ := @ih true ⟨w, hwt, hgw⟩
      by_cases ha : collapseWsClass a
      · cases inRun with
        | true => exact ⟨d, (by rw [if_pos ha]; exact hd), hgd⟩
        | false =>
          exact ⟨d, (by rw [if_pos ha]; exact List.mem_append_right _ hd), hgd⟩
      · obtain ⟨d2, hd2, hgd2⟩ := @ih false ⟨w, hwt, hgw⟩
        exact ⟨d2, (by rw [if_neg ha]; exact List.mem_cons_of_mem _ hd2), hgd2⟩

theorem replaceCRLF_hasGood {l : List Char} (h : ∃ c ∈ l, goodChar c = true) :
    ∃ c ∈ replaceCRLF l, goodChar c = true := by
  induction l using replaceCRLF.induct with
  | case1 => simp at h
  | case2 a => simpa [replaceCRLF] using h
  | case3 a d t hcd ih =>
    obtain ⟨rfl, rfl⟩ := hcd
    obtain ⟨w, hw, hgw⟩ := h
    rcases List.mem_cons.mp hw with rfl | hw2
    · exact absurd (goodChar_not_class hgw) (by decide)
    rcases List.mem_cons.mp hw2 with rfl | hw3
    · exact absurd (goodChar_not_class hgw) (by decide)
    obtain ⟨d2, hd2, hgd2⟩ := ih ⟨w, hw3, hgw⟩
    refine ⟨d2, ?_, hgd2⟩
    rw [replaceCRLF, if_pos ⟨rfl, rfl⟩]
    exact List.mem_cons_of_mem _ hd2
  | case4 a d t hcd ih =>
    obtain ⟨w, hw, hgw⟩ := h
    rcases List.mem_cons.mp hw with rfl | hw2
    · exact ⟨w, (by rw [replaceCRLF, if_neg hcd]; exact List.mem_cons_self _ _),
        hgw⟩
    · obtain ⟨d2, hd2, hgd2⟩ := ih ⟨w, hw2, hgw⟩
      exact ⟨d2, (by
        rw [replaceCRLF, if_neg hcd]
        exact List.mem_cons_of_mem _ hd2), hgd2⟩

theorem collapseNl3Aux_hasGood {l : List Char} {p : Nat}
    (h : ∃ c ∈ l, goodChar c = true) :
    ∃ c ∈ collapseNl3Aux p l, goodChar c = true := by
  induction l generalizing p with
  | nil => simp at h
  | cons a t ih =>
    obtain ⟨w, hw, hgw⟩ := h
    simp only [collapseNl3Aux]
    rcases List.mem_cons.mp hw with rfl | hwt
    · have ha : w ≠ '\n' := fun hc =>
        absurd (goodChar_not_class hgw) (by rw [hc]; decide)
      exact ⟨w, (by
        rw [if_neg ha]
        exact List.mem_append_right _ (List.mem_cons_self _ _)), hgw⟩
    · by_cases ha : a = '\n'
      · obtain ⟨d, hd, hgd⟩ := ih (p := p + 1) ⟨w, hwt, hgw⟩
        exact ⟨d, (by rw [if_pos ha]; exact hd), hgd⟩
      · obtain ⟨d, hd, hgd⟩ := ih (p := 0) ⟨w, hwt, hgw⟩
        exact ⟨d, (by
          rw [if_neg ha]
          exact List.mem_append_right _ (List.mem_cons_of_mem _ hd)), hgd⟩

theorem dropWhile_hasGood {l : List Char}
    (h : ∃ c ∈ l, goodChar c = true) :
    ∃ c ∈ l.dropWhile jsWhitespace, goodChar c = true := by
  induction l with
  | nil => simp at h
  | cons a t ih =>
    obtain ⟨w, hw, hgw⟩ := h
    by_cases ha : jsWhitespace a
    · rcases List.mem_cons.mp hw with rfl | hwt
      · exact absurd (goodChar_not_ws hgw) (by simp [ha])
      · rw [List.dropWhile_cons_of_pos ha]
        exact ih ⟨w, hwt, hgw⟩
    · rw [List.dropWhile_cons_of_neg ha]
      exact ⟨w, hw, hgw⟩

theorem jsTrim_hasGood {l : List Char} (h : ∃ c ∈ l, goodChar c = true) :
    ∃ c ∈ jsTrim l, goodChar c = true := by
  unfold jsTrim jsTrimEnd
  have h1 := dropWhile_hasGood h
  have h2 : ∃ c ∈ (l.dropWhile jsWhitespace).reverse, goodChar c = true := by
    obtain ⟨c, hc, hg⟩ := h1
    exact ⟨c, List.mem_reverse.mpr hc, hg⟩
  obtain ⟨c, hc, hg⟩ := dropWhile_hasGood h2
  exact ⟨c, List.mem_reverse.mpr hc, hg⟩

theorem jsTrim_hasGood_ne_nil {l : List Char} (h : ∃ c ∈ l, goodChar c = true) :
    jsTrim l ≠ [] := by
  obtain ⟨c, hc, _⟩ := jsTrim_hasGood h
  exact fun hnil => by rw [hnil] at hc; simp at hc

/-- The whole default regex chain preserves the presence of a good
character. -/
theorem foldl_defaultRules_hasGood {t : List Char}
    (h : ∃ c ∈ t, goodChar c = true) :
    ∃ c ∈ List.foldl applyRule t defaultRules, goodChar c = true := by
  rw [foldl_defaultRules]
  apply collapseRunsAux_hasGood
  apply replaceCharClass_hasGood ?_ ?_
  · apply replaceCharClass_hasGood ?_ (by intro c _ hc; exact ⟨'-', by simp, by decide⟩)
    apply replaceCharClass_hasGood ?_ (by intro c _ hc; exact ⟨'-', by simp, by decide⟩)
    apply replaceCharClass_hasGood ?_
      (by intro c _ hc; exact ⟨Char.ofNat 34, by simp, by decide⟩)
    apply replaceCharClass_hasGood ?_
      (by intro c _ hc; exact ⟨Char.ofNat 39, by simp, by decide⟩)
    apply replaceCharClass_hasGood ?_ (by intro c _ hc; exact ⟨'f', by simp, by decide⟩)
    apply replaceCharClass_hasGood ?_ (by intro c _ hc; exact ⟨'f', by simp, by decide⟩)
    apply replaceCharClass_hasGood ?_ (by intro c _ hc; exact ⟨'f', by simp, by decide⟩)
    apply replaceCharClass_hasGood ?_ (by intro c _ hc; exact ⟨'f', by simp, by decide⟩)
    exact replaceCharClass_hasGood h
      (by intro c _ hc; exact ⟨'f', by simp, by decide⟩)
  · intro c hgc hc
    exact absurd (goodChar_not_softHyphen hgc) (by simpa using hc)

/-- `_postProcessText` with the default configuration preserves the presence
of a good character. -/
theorem postProcessText_hasGood {raw : List Char}
    (h : ∃ c ∈ raw, goodChar c = true) :
    ∃ c ∈ postProcessText false [] raw, goodChar c = true := by
  have hne : raw ≠ [] := by
    obtain ⟨c, hc, _⟩ := h
    exact fun hnil => by rw [hnil] at hc; simp at hc
  unfold postProcessText
  rw [if_neg hne]
  show ∃ c ∈ jsTrim (collapseNewlines3 (replaceCRLF
      (List.foldl applyRule raw defaultRules))), goodChar c = true
  exact jsTrim_hasGood (collapseNl3Aux_hasGood (replaceCRLF_hasGood
    (foldl_defaultRules_hasGood h)))

theorem replaceCharClass_id {cls : Char → Bool} {rep l : List Char}
    (h : ∀ c ∈ l, cls c = false) : replaceCharClass cls rep l = l := by
  induction l with
  | nil => rfl
  | cons a t ih =>
    simp only [replaceCharClass]
    rw [if_neg (by simp [h a (List.mem_cons_self _ _)]),
      ih (fun c hc => h c (List.mem_cons_of_mem _ hc))]

theorem collapseRunsAux_all_class {cls : Char → Bool} {l : List Char}
    (h : ∀ c ∈ l, cls c = true) :
    collapseRunsAux cls (' ' :: []) true l = [] ∧
    (l ≠ [] → collapseRunsAux cls (' ' :: []) false l = (' ' :: [])) := by
  induction l with
  | nil => exact ⟨rfl, fun hc => absurd rfl hc⟩
  | cons a t ih =>
    have ha := h a (List.mem_cons_self _ _)
    have iht := ih (fun c hc => h c (List.mem_cons_of_mem _ hc))
    constructor
    · simp only [collapseRunsAux, if_pos ha]
      exact iht.1
    · intro _
      simp only [collapseRunsAux, if_pos ha]
      rw [iht.1]
      rfl

/-- If every character of the raw text is insignificant (whitespace or soft
hyphen), normalization returns the empty string. -/
theorem postProcessText_no_good {raw : List Char}
    (h : ∀ c ∈ raw, goodChar c = false) :
    postProcessText false [] raw = [] := by
  unfold postProcessText
  by_cases hne : raw = []
  · rw [if_pos hne]
  · rw [if_neg hne]
    show jsTrim (collapseNewlines3 (replaceCRLF
      (List.foldl applyRule raw defaultRules))) = []
    rw [foldl_defaultRules]
    -- every character is collapsible whitespace or the soft hyphen, and no
    -- character belongs to any of the ligature/quote/bullet/dash classes
    have hinsig : ∀ c ∈ raw, collapseWsClass c = true ∨ c = softHyphen := by
      intro c hc
      have hx := h c hc
      unfold goodChar at hx
      by_cases hw : collapseWsClass c
      · exact Or.inl hw
      · right
        have hw' : collapseWsClass c = false := by simpa using hw
        rw [hw'] at hx
        simp only [Bool.not_false, Bool.true_and, Bool.not_eq_false'] at hx
        exact eq_of_beq hx
    have hnotin : ∀ (cls : Char → Bool),
        (∀ c, cls c = true → goodChar c = true) →
        ∀ c ∈ raw, cls c = false := by
      intro cls hcls c hc
      by_cases hq : cls c
      · exact absurd (h c hc) (by simp [hcls c hq])
      · simpa using hq
    have e1 := @replaceCharClass_id _ ('f' :: 'f' :: []) _
      (hnotin (· == Char.ofNat 0xFB00) (by intro c hc; rw [eq_of_beq hc]; decide))
    rw [e1]
    have e2 := @replaceCharClass_id _ ('f' :: 'i' :: []) _
      (hnotin (· == Char.ofNat 0xFB01) (by intro c hc; rw [eq_of_beq hc]; decide))
    rw [e2]
    have e3 := @replaceCharClass_id _ ('f' :: 'l' :: []) _
      (hnotin (· == Char.ofNat 0xFB02) (by intro c hc; rw [eq_of_beq hc]; decide))
    rw [e3]
    have e4 := @replaceCharClass_id _ ('f' :: 'f' :: 'i' :: []) _
      (hnotin (· == Char.ofNat 0xFB03) (by intro c hc; rw [eq_of_beq hc]; decide))
    rw [e4]
    have e5 := @replaceCharClass_id _ ('f' :: 'f' :: 'l' :: []) _
      (hnotin (· == Char.ofNat 0xFB04) (by intro c hc; rw [eq_of_beq hc]; decide))
    rw [e5]
    have e6 := @replaceCharClass_id _ (Char.ofNat 39 :: []) _
      (hnotin singleQuoteCls (by
        intro c hc
        simp only [singleQuoteCls, Bool.or_eq_true] at hc
        rcases hc with hc | hc <;> rw [eq_of_beq hc] <;> decide))
    rw [e6]
    have e7 := @replaceCharClass_id _ (Char.ofNat 34 :: []) _
      (hnotin doubleQuoteCls (by
        intro c hc
        simp only [doubleQuoteCls, Bool.or_eq_true] at hc
        rcases hc with hc | hc <;> rw [eq_of_beq hc] <;> decide))
    rw [e7]
    have e8 := @replaceCharClass_id _ ('-' :: []) _
      (hnotin bulletCls (by
        intro c hc
        simp only [bulletCls, Bool.or_eq_true] at hc
        rcases hc with ((((((((hc | hc) | hc) | hc) | hc) | hc) | hc) | hc) | hc) | hc <;>
          rw [eq_of_beq hc] <;> decide))
    rw [e8]
    have e9 := @replaceCharClass_id _ ('-' :: []) _
      (hnotin dashCls (by
        intro c hc
        simp only [dashCls, Bool.or_eq_true] at hc
        rcases hc with hc | hc <;> rw [eq_of_beq hc] <;> decide))
    rw [e9]
    -- after removing soft hyphens every remaining character is whitespace
    set raw2 := replaceCharClass (· == softHyphen) [] raw with hraw2
    have hws : ∀ c ∈ raw2, collapseWsClass c = true := by
      intro c hc
      rcases replaceCharClass_mem (hraw2 ▸ hc) with ⟨hm, hbc⟩ | hrep
      · rcases hinsig c hm with hw | had
        · exact hw
        · exact absurd (by rw [had]; simp : (c == softHyphen) = true) (by simp [hbc])
      · simp at hrep
    by_cases h2 : raw2 = []
    · rw [h2]
      decide
    · unfold collapseRuns
      rw [(collapseRunsAux_all_class hws).2 h2]
      decide

/-- `linesOf` of a newline-free string is that single line. -/
theorem linesOf_no_newline {r : List Char} (h : '\n' ∉ r) : linesOf r = [r] := by
  unfold linesOf
  suffices H : ∀ (l acc : List Char), '\n' ∉ l →
      linesOfAux acc l = [acc.reverse ++ l] by
    simpa using H r [] h
  intro l
  induction l with
  | nil => intro acc _; simp [linesOfAux]
  | cons a t ih =>
    intro acc hnl
    have ha : a ≠ '\n' := fun hc => hnl (hc ▸ List.mem_cons_self _ _)
    simp only [linesOfAux, if_neg ha]
    rw [ih (a :: acc) (fun hc => hnl (List.mem_cons_of_mem _ hc))]
    simp

theorem joinSpace_single (x : List Char) : joinSpace [x] = x := by
  simp [joinSpace, List.intercalate]

/-- The synthesis of a single non-blank line: its output lines are a heading
or plain copy of the line, followed by one separator. -/
theorem classifyLine_ne_blank {l : List Char} {nb : Bool}
    (h : jsTrim l ≠ []) : classifyLine l nb ≠ LineTag.blank := by
  unfold classifyLine
  rw [if_neg h]
  split
  · simp
  · split <;> simp

theorem convertToMarkdownLines_single (r : List Char) (hnl : '\n' ∉ r)
    (htrim : jsTrim r = r) (hne : r ≠ []) :
    convertToMarkdownLines r = [('#' :: ' ' :: []) ++ r, []] ∨
    convertToMarkdownLines r = [r, []] := by
  unfold convertToMarkdownLines
  rw [linesOf_no_newline hnl]
  cases hcl : classifyLine r (nextLineBlank []) with
  | blank =>
    exact absurd hcl (classifyLine_ne_blank (by rw [htrim]; exact hne))
  | heading =>
    left
    simp only [mdLoop, hcl, htrim]
    rfl
  | table =>
    right
    have haux : jsTrim (joinSpace [r]) = r := by rw [joinSpace_single, htrim]
    simp [mdLoop, hcl, initMDState, endFlush, flushTableIfIn, flushTableBlock,
      flushParagraph, addSeparatorLine, haux, hne]
  | prose =>
    right
    have haux : jsTrim (joinSpace [r]) = r := by rw [joinSpace_single, htrim]
    simp [mdLoop, hcl, initMDState, endFlush, flushTableIfIn, flushTableBlock,
      flushParagraph, addSeparatorLine, haux, hne, htrim]

theorem jsTrimEnd_hasGood {x : List Char} (hg : ∃ c ∈ x, goodChar c = true) :
    ∃ c ∈ jsTrimEnd x, goodChar c = true := by
  obtain ⟨c, hc, hgc⟩ := hg
  unfold jsTrimEnd
  obtain ⟨d, hd, hgd⟩ := dropWhile_hasGood ⟨c, List.mem_reverse.mpr hc, hgc⟩
  exact ⟨d, List.mem_reverse.mpr hd, hgd⟩

theorem normalize_single_nonempty (x : List Char)
    (hg : ∃ c ∈ x, goodChar c = true) :
    normalizeMarkdownNewlines [x, []] ≠ [] := by
  have hx : jsTrim x ≠ [] := jsTrim_hasGood_ne_nil hg
  unfold normalizeMarkdownNewlines
  rw [show normalizeLinesAux 0 [x, []] = [jsTrimEnd x, []] from by
    unfold normalizeLinesAux
    rw [if_neg hx]
    rfl]
  have hg2 : ∃ c ∈ joinNl [jsTrimEnd x, []], goodChar c = true := by
    obtain ⟨c, hc, hgc⟩ := jsTrimEnd_hasGood hg
    refine ⟨c, ?_, hgc⟩
    have hj : joinNl [jsTrimEnd x, []] = jsTrimEnd x ++ '\n' :: [] := by
      simp [joinNl, List.intercalate, List.intersperse]
    rw [hj]
    exact List.mem_append_left _ hc
  intro hnil
  obtain ⟨c, hc, hgc⟩ := jsTrim_hasGood (collapseNl3Aux_hasGood (p := 0) hg2)
  unfold collapseNewlines3 at hnil
  rw [hnil] at hc
  simp at hc

/-! ### C4: idempotence of normalization -/

/-- Every collapsible-whitespace character of the list is a plain space. -/
def OnlySpaceWs (l : List Char) : Prop :=
  ∀ c ∈ l, collapseWsClass c = true → c = ' '

/-- No two adjacent collapsible-whitespace characters. -/
def NoWsPair (l : List Char) : Prop :=
  l.Chain' (fun a b => ¬(collapseWsClass a = true ∧ collapseWsClass b = true))

theorem collapseRunsAux_onlySpace (inRun : Bool) (l : List Char) :
    OnlySpaceWs (collapseRunsAux collapseWsClass (' ' :: []) inRun l) := by
  intro c hc hcls
  rcases collapseRunsAux_mem hc with ⟨_, hf⟩ | hr
  · rw [hcls] at hf; exact absurd hf (by simp)
  · simpa using hr

theorem collapseRunsAux_true_head (l : List Char) {d : Char}
    (h : (collapseRunsAux collapseWsClass (' ' :: []) true l).head? = some d) :
    collapseWsClass d = false := by
  induction l with
  | nil => simp [collapseRunsAux] at h
  | cons a t ih =>
    simp only [collapseRunsAux] at h
    by_cases ha : collapseWsClass a
    · rw [if_pos ha] at h
      exact ih h
    · rw [if_neg ha] at h
      simp only [List.head?_cons, Option.some.injEq] at h
      subst h
      simpa using ha

theorem collapseRunsAux_noWsPair (l : List Char) :
    ∀ inRun : Bool, NoWsPair (collapseRunsAux collapseWsClass (' ' :: []) inRun l) := by
  induction l with
  | nil => intro inRun; simp [collapseRunsAux, NoWsPair]
  | cons a t ih =>
    intro inRun
    simp only [collapseRunsAux]
    by_cases ha : collapseWsClass a
    · rw [if_pos ha]
      cases inRun with
      | true => exact ih true
      | false =>
        show NoWsPair (' ' :: collapseRunsAux collapseWsClass (' ' :: []) true t)
        unfold NoWsPair
        rw [List.chain'_cons']
        refine ⟨?_, ih true⟩
        intro y hy
        intro ⟨_, hy2⟩
        exact absurd hy2 (by simp [collapseRunsAux_true_head t hy])
    · rw [if_neg ha]
      unfold NoWsPair
      rw [List.chain'_cons']
      refine ⟨?_, ih false⟩
      intro y _
      intro ⟨ha2, _⟩
      exact absurd ha2 (by simpa using ha)

theorem collapseRunsAux_id (l : List Char) :
    ∀ inRun : Bool, OnlySpaceWs l → NoWsPair l →
      (inRun = true → ∀ d ∈ l.head?, collapseWsClass d = false) →
      collapseRunsAux collapseWsClass (' ' :: []) inRun l = l := by
  induction l with
  | nil => intro inRun _ _ _; rfl
  | cons a t ih =>
    intro inRun hos hnp hhead
    have hos' : OnlySpaceWs t := fun c hc => hos c (List.mem_cons_of_mem _ hc)
    have hnp' : NoWsPair t := (List.chain'_cons'.mp hnp).2
    simp only [collapseRunsAux]
    by_cases ha : collapseWsClass a
    · cases inRun with
      | true =>
        exact absurd (hhead rfl a (by simp)) (by simp [ha])
      | false =>
        rw [if_pos ha]
        have ha' : a = ' ' := hos a (List.mem_cons_self _ _) ha
        rw [ih true hos' hnp' (fun _ d hd => by
          have := (List.chain'_cons'.mp hnp).1 d hd
          by_cases hcd : collapseWsClass d
          · exact absurd ⟨ha, hcd⟩ this
          · simpa using hcd)]
        rw [ha']
        rfl
    · rw [if_neg ha]
      rw [ih false hos' hnp' (by simp)]

theorem replaceCRLF_id {l : List Char} (h : ∀ c ∈ l, c ≠ '\r') :
    replaceCRLF l = l := by
  induction l using replaceCRLF.induct with
  | case1 => rfl
  | case2 a => rfl
  | case3 a d t hcd ih =>
    exact absurd (h a (by simp [hcd.1])) (by simp [hcd.1])
  | case4 a d t hcd ih =>
    rw [replaceCRLF, if_neg hcd, ih (fun c hc => h c (List.mem_cons_of_mem _ hc))]

theorem rcc_absent_intro {cls : Char → Bool} {rep l : List Char}
    (hrep : ∀ d ∈ rep, cls d = false) :
    ∀ c ∈ replaceCharClass cls rep l, cls c = false := by
  intro c hc
  rcases replaceCharClass_mem hc with ⟨_, hf⟩ | hr
  · exact hf
  · exact hrep c hr

theorem rcc_absent_preserve {cls' : Char → Bool} {rep' l : List Char}
    {P : Char → Bool} (h : ∀ c ∈ l, P c = false)
    (hrep : ∀ d ∈ rep', P d = false) :
    ∀ c ∈ replaceCharClass cls' rep' l, P c = false := by
  intro c hc
  rcases replaceCharClass_mem hc with ⟨hm, _⟩ | hr
  · exact h c hm
  · exact hrep c hr

theorem collapse_absent_preserve {cls' : Char → Bool} {l : List Char}
    {P : Char → Bool} (h : ∀ c ∈ l, P c = false) (hsp : P ' ' = false) :
    ∀ c ∈ collapseRuns cls' (' ' :: []) l, P c = false := by
  intro c hc
  rcases collapseRunsAux_mem hc with ⟨hm, _⟩ | hr
  · exact h c hm
  · simp only [List.mem_singleton] at hr
    rw [hr]
    exact hsp

/-- All ten class-absence facts about the result of the default rule chain.
`y` abbreviates the text after the first ten character rules, `t2` after the
final whitespace collapse. -/
theorem defaultChain_absences (t : List Char) :
    (∀ c ∈ List.foldl applyRule t defaultRules, (c == Char.ofNat 0xFB00) = false) ∧
    (∀ c ∈ List.foldl applyRule t defaultRules, (c == Char.ofNat 0xFB01) = false) ∧
    (∀ c ∈ List.foldl applyRule t defaultRules, (c == Char.ofNat 0xFB02) = false) ∧
    (∀ c ∈ List.foldl applyRule t defaultRules, (c == Char.ofNat 0xFB03) = false) ∧
    (∀ c ∈ List.foldl applyRule t defaultRules, (c == Char.ofNat 0xFB04) = false) ∧
    (∀ c ∈ List.foldl applyRule t defaultRules, singleQuoteCls c = false) ∧
    (∀ c ∈ List.foldl applyRule t defaultRules, doubleQuoteCls c = false) ∧
    (∀ c ∈ List.foldl applyRule t defaultRules, bulletCls c = false) ∧
    (∀ c ∈ List.foldl applyRule t defaultRules, dashCls c = false) ∧
    (∀ c ∈ List.foldl applyRule t defaultRules, (c == softHyphen) = false) := by
  rw [foldl_defaultRules]
  refine ⟨?_, ?_, ?_, ?_, ?_, ?_, ?_, ?_, ?_, ?_⟩ <;>
    refine collapse_absent_preserve ?_ (by decide)
  · refine rcc_absent_preserve ?_ (by decide)
    refine rcc_absent_preserve ?_ (by decide)
    refine rcc_absent_preserve ?_ (by decide)
    refine rcc_absent_preserve ?_ (by decide)
    refine rcc_absent_preserve ?_ (by decide)
    refine rcc_absent_preserve ?_ (by decide)
    refine rcc_absent_preserve ?_ (by decide)
    refine rcc_absent_preserve ?_ (by decide)
    refine rcc_absent_preserve ?_ (by decide)
    exact rcc_absent_intro (by decide)
  · refine rcc_absent_preserve ?_ (by decide)
    refine rcc_absent_preserve ?_ (by decide)
    refine rcc_absent_preserve ?_ (by decide)
    refine rcc_absent_preserve ?_ (by decide)
    refine rcc_absent_preserve ?_ (by decide)
    refine rcc_absent_preserve ?_ (by decide)
    refine rcc_absent_preserve ?_ (by decide)
    refine rcc_absent_preserve ?_ (by decide)
    exact rcc_absent_intro (by decide)
  · refine rcc_absent_preserve ?_ (by decide)
    refine rcc_absent_preserve ?_ (by decide)
    refine rcc_absent_preserve ?_ (by decide)
    refine rcc_absent_preserve ?_ (by decide)
    refine rcc_absent_preserve ?_ (by decide)
    refine rcc_absent_preserve ?_ (by decide)
    refine rcc_absent_preserve ?_ (by decide)
    exact rcc_absent_intro (by decide)
  · refine rcc_absent_preserve ?_ (by decide)
    refine rcc_absent_preserve ?_ (by decide)
    refine rcc_absent_preserve ?_ (by decide)
    refine rcc_absent_preserve ?_ (by decide)
    refine rcc_absent_preserve ?_ (by decide)
    refine rcc_absent_preserve ?_ (by decide)
    exact rcc_absent_intro (by decide)
  · refine rcc_absent_preserve ?_ (by decide)
    refine rcc_absent_preserve ?_ (by decide)
    refine rcc_absent_preserve ?_ (by decide)
    refine rcc_absent_preserve ?_ (by decide)
    refine rcc_absent_preserve ?_ (by decide)
    exact rcc_absent_intro (by decide)
  · refine rcc_absent_preserve ?_ (by decide)
    refine rcc_absent_preserve ?_ (by decide)
    refine rcc_absent_preserve ?_ (by decide)
    refine rcc_absent_preserve ?_ (by decide)
    exact rcc_absent_intro (by decide)
  · refine rcc_absent_preserve ?_ (by decide)
    refine rcc_absent_preserve ?_ (by decide)
    refine rcc_absent_preserve ?_ (by decide)
    exact rcc_absent_intro (by decide)
  · refine rcc_absent_preserve ?_ (by decide)
    refine rcc_absent_preserve ?_ (by decide)
    exact rcc_absent_intro (by decide)
  · refine rcc_absent_preserve ?_ (by decide)
    exact rcc_absent_intro (by decide)
  · exact rcc_absent_intro (by decide)

theorem onlySpace_not_mem {l : List Char} (h : OnlySpaceWs l) {c : Char}
    (hcls : collapseWsClass c = true) (hne : c ≠ ' ') : c ∉ l :=
  fun hc => hne (h c hc hcls)

theorem chain'_jsTrim {R : Char → Char → Prop}
    (hsymm : ∀ a b, R a b → R b a) {l : List Char} (h : l.Chain' R) :
    (jsTrim l).Chain' R := by
  unfold jsTrim jsTrimEnd
  have h1 : (l.dropWhile jsWhitespace).Chain' R :=
    h.suffix (List.dropWhile_suffix _)
  have h2 : ((l.dropWhile jsWhitespace).reverse).Chain' R :=
    List.chain'_reverse.mpr (h1.imp (fun a b hab => hsymm a b hab))
  have h3 : (((l.dropWhile jsWhitespace).reverse).dropWhile jsWhitespace).Chain' R :=
    h2.suffix (List.dropWhile_suffix _)
  exact List.chain'_reverse.mpr (h3.imp (fun a b hab => hsymm a b hab))

set_option maxHeartbeats 1600000 in
/-- C4: with the PascalCase option disabled and no caller-supplied rules,
normalization is idempotent. (The claim's second clause, that idempotence
*may* fail with PascalCase splitting enabled, only withholds the guarantee
for that opt-in mode and asserts nothing that could be formalized.) -/
theorem postProcess_idempotent (s : List Char) :
    postProcessText false [] (postProcessText false [] s) =
      postProcessText false [] s := by
  by_cases hs : s = []
  · subst hs; rfl
  · -- the first pass
    have hpp : postProcessText false [] s = jsTrim (collapseNewlines3
        (replaceCRLF (List.foldl applyRule s defaultRules))) := by
      unfold postProcessText
      rw [if_neg hs]
      rfl
    set t2 := List.foldl applyRule s defaultRules with ht2
    have habs := defaultChain_absences s
    have hos : OnlySpaceWs t2 := by
      rw [ht2, foldl_defaultRules]
      exact collapseRunsAux_onlySpace false _
    have hnp : NoWsPair t2 := by
      rw [ht2, foldl_defaultRules]
      exact collapseRunsAux_noWsPair _ false
    have hnr : ∀ c ∈ t2, c ≠ '\r' := by
      intro c hc hrc
      subst hrc
      exact onlySpace_not_mem hos (by decide) (by decide) hc
    have hnn : '\n' ∉ t2 :=
      onlySpace_not_mem hos (by decide) (by decide)
    have hcr : replaceCRLF t2 = t2 := replaceCRLF_id hnr
    have hnl3 : collapseNewlines3 t2 = t2 := collapseNl3Aux_zero_id hnn
    have hu : postProcessText false [] s = jsTrim t2 := by
      rw [hpp, hcr, hnl3]
    set u := jsTrim t2 with huDef
    -- facts about `u`
    have husub : ∀ c ∈ u, c ∈ t2 := fun c hc => jsTrim_subset hc
    have hosu : OnlySpaceWs u := fun c hc hcls => hos c (husub c hc) hcls
    have hnpu : NoWsPair u := chain'_jsTrim (fun a b hab h2 => hab ⟨h2.2, h2.1⟩) hnp
    by_cases hu0 : u = []
    · rw [hu, hu0]
      rfl
    · rw [hu]
      have hpp2 : postProcessText false [] u = jsTrim (collapseNewlines3
          (replaceCRLF (List.foldl applyRule u defaultRules))) := by
        unfold postProcessText
        rw [if_neg hu0]
        rfl
      rw [hpp2, foldl_defaultRules]
      obtain ⟨a1, a2, a3, a4, a5, a6, a7, a8, a9, a10⟩ := habs
      rw [replaceCharClass_id (fun c hc => a1 c (husub c hc)),
        replaceCharClass_id (fun c hc => a2 c (husub c hc)),
        replaceCharClass_id (fun c hc => a3 c (husub c hc)),
        replaceCharClass_id (fun c hc => a4 c (husub c hc)),
        replaceCharClass_id (fun c hc => a5 c (husub c hc)),
        replaceCharClass_id (fun c hc => a6 c (husub c hc)),
        replaceCharClass_id (fun c hc => a7 c (husub c hc)),
        replaceCharClass_id (fun c hc => a8 c (husub c hc)),
        replaceCharClass_id (fun c hc => a9 c (husub c hc)),
        replaceCharClass_id (fun c hc => a10 c (husub c hc))]
      rw [show collapseRuns collapseWsClass (' ' :: []) u = u from
        collapseRunsAux_id u false hosu hnpu (fun h => absurd h (by decide))]
      have hnru : ∀ c ∈ u, c ≠ '\r' := fun c hc => hnr c (husub c hc)
      have hnnu : '\n' ∉ u := fun hc => hnn (husub _ hc)
      have hnl3u : collapseNewlines3 u = u := collapseNl3Aux_zero_id hnnu
      rw [replaceCRLF_id hnru, hnl3u, huDef, jsTrim_idem]

/-- C1 counterexample: the raw text consisting of a single soft hyphen
(U+00AD) contains a non-whitespace character, yet the non-LLM conversion
returns the empty string — normalization deletes soft hyphens. -/
theorem conversion_invariant_counterexample :
    jsWhitespace softHyphen = false ∧
    convertPipeline (softHyphen :: []) = [] := by
  constructor
  · decide
  · decide

/-- C1 amended: under the default configuration, the Markdown returned by
the non-LLM conversion pipeline is non-empty exactly when the extracted raw
text contains at least one character that is neither whitespace nor a soft
hyphen. -/
theorem conversion_markdown_nonempty_iff (raw : List Char) :
    convertPipeline raw ≠ [] ↔ ∃ c ∈ raw, goodChar c = true := by
  constructor
  · intro hne
    by_contra hno
    push_neg at hno
    have hall : ∀ c ∈ raw, goodChar c = false := by
      intro c hc
      have := hno c hc
      simpa using this
    apply hne
    unfold convertPipeline
    rw [postProcessText_no_good hall]
    decide
  · intro hg
    have hg2 := postProcessText_hasGood hg
    have hnl : '\n' ∉ postProcessText false [] raw :=
      postProcessText_newline_free false raw
    have hne2 : postProcessText false [] raw ≠ [] := by
      obtain ⟨c, hc, _⟩ := hg2
      exact fun hnil => by rw [hnil] at hc; simp at hc
    have htrim : jsTrim (postProcessText false [] raw) =
        postProcessText false [] raw := by
      unfold postProcessText
      rw [if_neg (by
        obtain ⟨c, hc, _⟩ := hg
        exact fun hnil => by rw [hnil] at hc; simp at hc)]
      exact jsTrim_idem _
    unfold convertPipeline convertToMarkdown
    rcases convertToMarkdownLines_single _ hnl htrim hne2 with hl | hl
    · rw [hl]
      apply normalize_single_nonempty
      obtain ⟨c, hc, hgc⟩ := hg2
      exact ⟨c, List.mem_append_right _ hc, hgc⟩
    · rw [hl]
      exact normalize_single_nonempty _ hg2

/-! ### C5: the 79-character short-line heading rule -/

/-- A 79-character line containing a double space: a table/code candidate. -/
def line79 : List Char := 'a' :: ' ' :: ' ' :: List.replicate 76 'b'

theorem mem_addSeparatorLine {x : List Char} {out : List (List Char)}
    (h : x ∈ out) : x ∈ addSeparatorLine out := by
  unfold addSeparatorLine
  split
  · exact List.mem_append_left _ h
  · exact h

theorem flushParagraph_out_mono {x : List Char} {st : MDState}
    (h : x ∈ st.out) : x ∈ (flushParagraph st).out := by
  unfold flushParagraph
  split
  · exact h
  · exact mem_addSeparatorLine (List.mem_append_left _ h)

theorem flushTableBlock_out_mono {x : List Char} {st : MDState}
    (h : x ∈ st.out) : x ∈ (flushTableBlock st).out := by
  unfold flushTableBlock
  split
  · exact h
  · apply mem_addSeparatorLine
    split
    · exact List.mem_append_left _ (List.mem_append_left _ (List.mem_append_left _ h))
    · exact List.mem_append_left _ h

theorem flushTableIfIn_out_mono {x : List Char} {st : MDState}
    (h : x ∈ st.out) : x ∈ (flushTableIfIn st).out := by
  unfold flushTableIfIn
  split
  · exact flushTableBlock_out_mono h
  · exact h

theorem endFlush_out_mono {x : List Char} {st : MDState}
    (h : x ∈ st.out) : x ∈ (endFlush st).out :=
  flushParagraph_out_mono (flushTableIfIn_out_mono h)

/-- Once a line has been pushed, the rest of the loop never removes it. -/
theorem mdLoop_out_mono (x : List Char) :
    ∀ (n : Nat) (ls : List (List Char)), ls.length ≤ n → ∀ st : MDState,
      x ∈ st.out → x ∈ (mdLoop st ls).out := by
  intro n
  induction n with
  | zero =>
    intro ls hls st h
    cases ls with
    | nil => exact h
    | cons l rest => simp at hls
  | succ n ih =>
    intro ls hls st h
    cases ls with
    | nil => exact h
    | cons l rest =>
      have hrest : rest.length ≤ n := by
        simp only [List.length_cons] at hls
        omega
      rw [mdLoop.eq_def]
      dsimp only
      cases hcl : classifyLine l (nextLineBlank rest) with
      | blank => exact ih rest hrest _ (flushParagraph_out_mono (flushTableIfIn_out_mono h))
      | table => exact ih rest hrest _ (flushParagraph_out_mono h)
      | prose => exact ih rest hrest _ (flushTableIfIn_out_mono h)
      | heading =>
        have h2 : x ∈ addSeparatorLine ((flushParagraph (flushTableIfIn st)).out ++
            [('#' :: ' ' :: []) ++ jsTrim l]) :=
          mem_addSeparatorLine (List.mem_append_left _
            (flushParagraph_out_mono (flushTableIfIn_out_mono h)))
        cases rest with
        | nil => exact h2
        | cons r0 rest' =>
          dsimp only
          by_cases hsk : headingSkip (r0 :: rest') = true
          · rw [if_pos hsk]
            exact ih rest' (by simp only [List.length_cons] at hrest; omega) _ h2
          · rw [if_neg hsk]
            exact ih (r0 :: rest') hrest _ h2

/-- A line classified as a heading at the head of the remaining input puts
its `# `-prefixed form into the output. -/
theorem mdLoop_heading_base (l : List Char) (post : List (List Char))
    (hcl : classifyLine l (nextLineBlank post) = LineTag.heading)
    (st : MDState) :
    ('#' :: ' ' :: jsTrim l) ∈ (mdLoop st (l :: post)).out := by
  rw [mdLoop.eq_def]
  dsimp only
  rw [hcl]
  have h2 : ('#' :: ' ' :: jsTrim l) ∈
      addSeparatorLine ((flushParagraph (flushTableIfIn st)).out ++
        [('#' :: ' ' :: []) ++ jsTrim l]) :=
    mem_addSeparatorLine (List.mem_append_right _ (by simp))
  cases post with
  | nil => exact h2
  | cons r0 rest' =>
    dsimp only
    by_cases hsk : headingSkip (r0 :: rest') = true
    · rw [if_pos hsk]
      exact mdLoop_out_mono _ rest'.length rest' le_rfl _ h2
    · rw [if_neg hsk]
      exact mdLoop_out_mono _ (rest'.length + 1) (r0 :: rest') (by simp) _ h2

/-- The heading survives any prefix of earlier lines: the loop can skip at
most the blank line after a heading, never a line whose trim is non-empty. -/
theorem mdLoop_heading_emitted (l : List Char) (post : List (List Char))
    (hcl : classifyLine l (nextLineBlank post) = LineTag.heading)
    (hne : (jsTrim l).isEmpty = false) :
    ∀ (n : Nat) (pre : List (List Char)), pre.length ≤ n → ∀ st : MDState,
      ('#' :: ' ' :: jsTrim l) ∈ (mdLoop st (pre ++ l :: post)).out := by
  intro n
  induction n with
  | zero =>
    intro pre hpre st
    have hpre0 : pre = [] := List.length_eq_zero.mp (Nat.le_zero.mp hpre)
    subst hpre0
    exact mdLoop_heading_base l post hcl st
  | succ n ih =>
    intro pre hpre st
    cases pre with
    | nil => exact mdLoop_heading_base l post hcl st
    | cons p pre' =>
      have hpre' : pre'.length ≤ n := by
        simp only [List.length_cons] at hpre
        omega
      simp only [List.cons_append]
      rw [mdLoop.eq_def]
      dsimp only
      cases hclp : classifyLine p (nextLineBlank (pre' ++ l :: post)) with
      | blank => exact ih pre' hpre' _
      | table => exact ih pre' hpre' _
      | prose => exact ih pre' hpre' _
      | heading =>
        cases pre' with
        | nil =>
          have hsk : headingSkip (l :: post) = false := by
            show (!l.isEmpty && (jsTrim l).isEmpty) = false
            rw [hne]
            simp
          simp only [List.nil_append]
          rw [if_neg (by simp [hsk])]
          exact mdLoop_heading_base l post hcl _
        | cons q pre'' =>
          have hpre'' : pre''.length ≤ n := by
            simp only [List.length_cons] at hpre'
            omega
          simp only [List.cons_append]
          by_cases hsk : headingSkip (q :: (pre'' ++ l :: post)) = true
          · rw [if_pos hsk]
            exact ih pre'' hpre'' _
          · rw [if_neg hsk]
            exact ih (q :: pre'') hpre' _

theorem classifyLine_heading_true (l : List Char)
    (hne : ¬jsTrim l = [])
    (hnp : noPunctEnd (jsTrim l) = true)
    (hlen1 : 1 < (jsTrim l).length) :
    classifyLine l true = LineTag.heading := by
  have h0 := hnp
  unfold noPunctEnd at h0
  rw [Bool.and_eq_true] at h0
  have hshort : isShortLine (jsTrim l) = true := h0.1
  unfold classifyLine
  rw [if_neg hne]
  rw [if_pos (show (isAllCapsLine (jsTrim l) ||
      (isShortLine (jsTrim l) && noPunctEnd (jsTrim l) && true &&
        decide (1 < (jsTrim l).length))) = true by simp [hshort, hnp, hlen1])]

theorem classifyLine_prose_false (l : List Char)
    (hne : ¬jsTrim l = [])
    (hcaps : isAllCapsLine (jsTrim l) = false)
    (hsp : spaceTest l = false) :
    classifyLine l false = LineTag.prose := by
  unfold classifyLine
  rw [if_neg hne]
  rw [if_neg (show ¬(isAllCapsLine (jsTrim l) ||
      (isShortLine (jsTrim l) && noPunctEnd (jsTrim l) && false &&
        decide (1 < (jsTrim l).length))) = true by simp [hcaps])]
  rw [if_neg (show ¬spaceTest l = true by simp [hsp])]

/-- C5 counterexample: `line79` is a trimmed 79-character line that does not
end in sentence punctuation, is not all-caps, and is followed by the
non-blank line `"c"`; the loop classifies it as a table/code candidate, not
as a prose fragment, and the produced Markdown keeps it as its own block
instead of merging it into the following paragraph. -/
theorem short_line_prose_counterexample :
    (jsTrim line79).length = 79 ∧
    noPunctEnd (jsTrim line79) = true ∧
    isAllCapsLine (jsTrim line79) = false ∧
    nextLineBlank [('c' :: [])] = false ∧
    classifyLine line79 (nextLineBlank [('c' :: [])]) = LineTag.table ∧
    convertToMarkdownLines (line79 ++ '\n' :: 'c' :: []) =
      [line79, [], ('c' :: []), []] := by
  decide

/-- C5: a trimmed 79-character line without trailing sentence punctuation
followed by a blank line or end of input is emitted as a level-1 heading;
the same line followed by a non-blank line is classified as prose only when
it additionally is not an all-caps line and not a table/code candidate
(2+ consecutive spaces between non-space runs or 3+ double-space columns). -/
theorem short_line_heading_rule (raw l : List Char)
    (pre post : List (List Char))
    (hsplit : linesOf raw = pre ++ l :: post)
    (hlen : (jsTrim l).length = 79)
    (hnp : noPunctEnd (jsTrim l) = true) :
    (nextLineBlank post = true →
      ('#' :: ' ' :: jsTrim l) ∈ convertToMarkdownLines raw) ∧
    (∀ m rest, jsTrim m ≠ [] →
      isAllCapsLine (jsTrim l) = false → spaceTest l = false →
      classifyLine l (nextLineBlank (m :: rest)) = LineTag.prose) := by
  have hne : ¬jsTrim l = [] := by
    intro h0
    rw [h0] at hlen
    simp at hlen
  constructor
  · intro hblank
    unfold convertToMarkdownLines
    rw [hsplit]
    have hcl : classifyLine l (nextLineBlank post) = LineTag.heading := by
      rw [hblank]
      exact classifyLine_heading_true l hne hnp (by omega)
    have hnee : (jsTrim l).isEmpty = false := by
      cases h : jsTrim l with
      | nil => exact absurd h hne
      | cons a t => rfl
    exact endFlush_out_mono
      (mdLoop_heading_emitted l post hcl hnee pre.length pre le_rfl initMDState)
  · intro m rest hm hcaps hsp
    have hnb : nextLineBlank (m :: rest) = false := by
      unfold nextLineBlank
      exact beq_eq_false_iff_ne.mpr hm
    rw [hnb]
    exact classifyLine_prose_false l hne hcaps hsp

/-- Instance of the C5 rule: a 79-`a` line alone in the input becomes a
heading, and the same line before a non-blank line is prose. -/
theorem short_line_heading_rule_witness :
    ('#' :: ' ' :: jsTrim (List.replicate 79 'a')) ∈
      convertToMarkdownLines (List.replicate 79 'a') ∧
    classifyLine (List.replicate 79 'a') (nextLineBlank [('c' :: [])]) =
      LineTag.prose := by
  have h := short_line_heading_rule (List.replicate 79 'a')
    (List.replicate 79 'a') [] [] (by decide) (by decide) (by decide)
  exact ⟨h.1 (by decide), h.2 ('c' :: []) [] (by decide) (by decide) (by decide)⟩

/-! ### C6: fenced blocks for runs of table/code-candidate lines -/

theorem dropWhile_mem_of_not_ws :
    ∀ {l : List Char} {c : Char}, c ∈ l → jsWhitespace c = false →
      ∃ d ∈ l.dropWhile jsWhitespace, jsWhitespace d = false := by
  intro l
  induction l with
  | nil => intro c hc; exact absurd hc (by simp)
  | cons a t ih =>
    intro c hc hw
    by_cases ha : jsWhitespace a
    · rw [List.dropWhile_cons_of_pos ha]
      rcases List.mem_cons.mp hc with rfl | hct
      · exact absurd ha (by simp [hw])
      · exact ih hct hw
    · rw [List.dropWhile_cons_of_neg ha]
      exact ⟨a, List.mem_cons_self a t, by simpa using ha⟩

theorem jsTrim_ne_nil_of_not_ws {l : List Char} {c : Char}
    (hc : c ∈ l) (hw : jsWhitespace c = false) : jsTrim l ≠ [] := by
  unfold jsTrim jsTrimEnd
  obtain ⟨d, hd, hdw⟩ := dropWhile_mem_of_not_ws hc hw
  obtain ⟨e, he, _⟩ := dropWhile_mem_of_not_ws (List.mem_reverse.mpr hd) hdw
  intro h
  rw [List.reverse_eq_nil_iff] at h
  rw [h] at he
  simp at he

theorem hasMultipleSpacesBetweenWords_not_ws :
    ∀ (l : List Char), hasMultipleSpacesBetweenWords l = true →
      ∃ c ∈ l, jsWhitespace c = false := by
  intro l
  induction l with
  | nil => intro h; exact absurd h (by decide)
  | cons a t ih =>
    intro h
    cases t with
    | nil => exact nomatch h
    | cons c2 t2 =>
      cases t2 with
      | nil => exact nomatch h
      | cons c3 t3 =>
        rw [hasMultipleSpacesBetweenWords.eq_def] at h
        dsimp only at h
        rw [Bool.or_eq_true] at h
        rcases h with h1 | h2
        · simp only [Bool.and_eq_true] at h1
          exact ⟨a, List.mem_cons_self a _, by simpa using h1.1.1.1⟩
        · obtain ⟨c, hc, hw⟩ := ih h2
          exact ⟨c, List.mem_cons_of_mem a hc, hw⟩

theorem bigWsRunsAux_all_ws :
    ∀ (l : List Char), (∀ c ∈ l, jsWhitespace c = true) →
      ∀ r : Nat, bigWsRunsAux r l ≤ 1 := by
  intro l
  induction l with
  | nil =>
    intro _ r
    show (if 2 ≤ r then 1 else 0) ≤ 1
    split <;> simp
  | cons a t ih =>
    intro h r
    show (if jsWhitespace a = true then bigWsRunsAux (r + 1) t
      else (if 2 ≤ r then 1 else 0) + bigWsRunsAux 0 t) ≤ 1
    rw [if_pos (h a (List.mem_cons_self a t))]
    exact ih (fun c hc => h c (List.mem_cons_of_mem a hc)) (r + 1)

theorem hasMultipleColumnsBySpaces_not_ws {l : List Char}
    (h : hasMultipleColumnsBySpaces l = true) :
    ∃ c ∈ l, jsWhitespace c = false := by
  by_contra hno
  push_neg at hno
  have hall : ∀ c ∈ l, jsWhitespace c = true := by
    intro c hc
    cases hw : jsWhitespace c
    · exact absurd hw (hno c hc)
    · rfl
  have hle := bigWsRunsAux_all_ws l hall 0
  unfold hasMultipleColumnsBySpaces at h
  rw [Bool.and_eq_true] at h
  have h1 : 2 < bigWsRuns l + 1 := by simpa using h.1
  unfold bigWsRuns at h1
  omega

theorem spaceTest_trim_ne {l : List Char} (h : spaceTest l = true) :
    jsTrim l ≠ [] := by
  unfold spaceTest at h
  rw [Bool.or_eq_true] at h
  rcases h with h1 | h2
  · obtain ⟨c, hc, hw⟩ := hasMultipleSpacesBetweenWords_not_ws l h1
    exact jsTrim_ne_nil_of_not_ws hc hw
  · obtain ⟨c, hc, hw⟩ := hasMultipleColumnsBySpaces_not_ws h2
    exact jsTrim_ne_nil_of_not_ws hc hw

/-- A table/code candidate that is not an all-caps line, and either has a
non-blank next line or ends in sentence punctuation (or is long), is routed
to the table branch. -/
theorem classifyLine_table_of (l : List Char) (nb : Bool)
    (hsp : spaceTest l = true)
    (hcaps : isAllCapsLine (jsTrim l) = false)
    (hnb : nb = false ∨ noPunctEnd (jsTrim l) = false) :
    classifyLine l nb = LineTag.table := by
  have hne : ¬jsTrim l = [] := spaceTest_trim_ne hsp
  have hcond : (isAllCapsLine (jsTrim l) ||
      (isShortLine (jsTrim l) && noPunctEnd (jsTrim l) && nb &&
        decide (1 < (jsTrim l).length))) = false := by
    rcases hnb with rfl | hnp
    · simp [hcaps]
    · simp [hcaps, hnp]
  unfold classifyLine
  rw [if_neg hne, if_neg (by simp [hcond]), if_pos hsp]

theorem flushParagraph_nil_para (out table : List (List Char)) (it : Bool) :
    flushParagraph ⟨out, [], table, it⟩ = ⟨out, [], table, it⟩ := by
  unfold flushParagraph
  exact if_pos rfl

/-- Consuming a non-empty run of candidate lines only accumulates them in
the table buffer. -/
theorem mdLoop_table_accum :
    ∀ (run : List (List Char)), run ≠ [] →
      (∀ l ∈ run, spaceTest l = true) →
      (∀ l ∈ run, isAllCapsLine (jsTrim l) = false) →
      (∀ l, run.getLast? = some l → noPunctEnd (jsTrim l) = false) →
      ∀ (out table : List (List Char)) (it : Bool),
        mdLoop ⟨out, [], table, it⟩ run = ⟨out, [], table ++ run, true⟩ := by
  intro run
  induction run with
  | nil => intro h; exact absurd rfl h
  | cons l rest ih =>
    intro _ hsp hcaps hlast out table it
    have hcl : classifyLine l (nextLineBlank rest) = LineTag.table := by
      apply classifyLine_table_of
      · exact hsp l (List.mem_cons_self l rest)
      · exact hcaps l (List.mem_cons_self l rest)
      · cases rest with
        | nil => exact Or.inr (hlast l rfl)
        | cons r0 rest' =>
          refine Or.inl ?_
          show (jsTrim r0 == []) = false
          exact beq_eq_false_iff_ne.mpr (spaceTest_trim_ne (hsp r0 (by simp)))
    rw [mdLoop.eq_def]
    dsimp only
    rw [hcl]
    dsimp only
    rw [flushParagraph_nil_para]
    dsimp only
    cases rest with
    | nil => rfl
    | cons r0 rest' =>
      rw [ih (by simp)
        (fun x hx => hsp x (List.mem_cons_of_mem l hx))
        (fun x hx => hcaps x (List.mem_cons_of_mem l hx))
        (fun x hx => hlast x (by rw [List.getLast?_cons_cons]; exact hx))
        out (table ++ [l]) true]
      simp

theorem addSeparatorLine_concat (xs : List (List Char)) {y : List Char}
    (hy : y ≠ []) :
    addSeparatorLine (xs ++ [y]) = xs ++ [y] ++ [[]] := by
  unfold addSeparatorLine
  rw [if_pos ⟨by simp, by rw [List.getLast?_concat]; simp [hy]⟩]

theorem endFlush_table_ge2 (run : List (List Char)) (h2 : 2 ≤ run.length) :
    (endFlush ⟨[], [], run, true⟩).out =
      [fence] ++ run.map jsTrimEnd ++ [fence, []] := by
  have hne : run ≠ [] := by
    intro h0
    rw [h0] at h2
    simp at h2
  unfold endFlush flushTableIfIn
  rw [if_pos rfl]
  unfold flushTableBlock
  rw [if_neg (by simpa using hne)]
  dsimp only
  rw [if_pos (by simpa using h2)]
  rw [flushParagraph_nil_para]
  dsimp only
  rw [show ([] : List (List Char)) ++ [fence] ++ run.map jsTrimEnd ++ [fence] =
    ([fence] ++ run.map jsTrimEnd) ++ [fence] by simp]
  rw [addSeparatorLine_concat _ (by decide)]
  simp

theorem endFlush_table_one (l : List Char) (hne : jsTrim (joinSpace [l]) ≠ []) :
    (endFlush ⟨[], [], [l], true⟩).out = [jsTrim (joinSpace [l]), []] := by
  unfold endFlush flushTableIfIn
  rw [if_pos rfl]
  unfold flushTableBlock
  rw [if_neg (by simp)]
  dsimp only
  rw [if_neg (by simp)]
  rw [flushParagraph_nil_para]
  dsimp only
  rw [addSeparatorLine_concat ([] : List (List Char)) hne]
  simp

/-- C6 counterexample: both lines of `"AB  CD\nEF  GH"` are table/code
candidates (a double space between columns), yet each also matches the
all-caps heading rule, which runs first: the output is two level-1 headings
and contains no fence. -/
theorem table_run_counterexample :
    (∀ l ∈ linesOf (("AB  CD\nEF  GH").data), spaceTest l = true) ∧
    2 ≤ (linesOf (("AB  CD\nEF  GH").data)).length ∧
    convertToMarkdownLines (("AB  CD\nEF  GH").data) =
      [('#' :: ' ' :: ("AB  CD").data), [],
        ('#' :: ' ' :: ("EF  GH").data), []] ∧
    fence ∉ convertToMarkdownLines (("AB  CD\nEF  GH").data) := by
  decide

/-- C6: when the input consists of a run of table/code-candidate lines none
of which is an all-caps line, the last of which does not satisfy the
short-no-punctuation test, a run of two or more lines is emitted wrapped in
fences with each line trailing-trimmed, while a run of exactly one line is
emitted as an ordinary joined plain-text line. (Heading detection runs
before the candidate test and would otherwise steal lines from the run.) -/
theorem table_run_rule (raw : List Char) (run : List (List Char))
    (hsplit : linesOf raw = run)
    (hcand : ∀ l ∈ run, spaceTest l = true)
    (hcaps : ∀ l ∈ run, isAllCapsLine (jsTrim l) = false)
    (hlast : ∀ l, run.getLast? = some l → noPunctEnd (jsTrim l) = false) :
    (2 ≤ run.length →
      convertToMarkdownLines raw = [fence] ++ run.map jsTrimEnd ++ [fence, []]) ∧
    (run.length = 1 →
      convertToMarkdownLines raw = [jsTrim (joinSpace run), []]) := by
  constructor
  · intro h2
    have hne : run ≠ [] := by
      intro h0
      rw [h0] at h2
      simp at h2
    unfold convertToMarkdownLines
    rw [hsplit]
    rw [show initMDState = (⟨[], [], [], false⟩ : MDState) from rfl]
    rw [mdLoop_table_accum run hne hcand hcaps hlast [] [] false]
    rw [show (([] : List (List Char)) ++ run) = run from by simp]
    exact endFlush_table_ge2 run h2
  · intro h1
    cases run with
    | nil => simp at h1
    | cons l rest =>
      cases rest with
      | cons r0 rest' => simp at h1
      | nil =>
        unfold convertToMarkdownLines
        rw [hsplit]
        rw [show initMDState = (⟨[], [], [], false⟩ : MDState) from rfl]
        rw [mdLoop_table_accum [l] (by simp) hcand hcaps hlast [] [] false]
        rw [show (([] : List (List Char)) ++ [l]) = [l] from by simp]
        apply endFlush_table_one
        rw [joinSpace_single]
        exact spaceTest_trim_ne (hcand l (by simp))

/-- Instance of the C6 rule: the two-line run "a  b." / "c  d." is fenced;
the single line "a  b." is joined as plain text. -/
theorem table_run_rule_witness :
    convertToMarkdownLines (("a  b.\nc  d.").data) =
      [fence] ++ (linesOf (("a  b.\nc  d.").data)).map jsTrimEnd ++ [fence, []] ∧
    convertToMarkdownLines (("a  b.").data) =
      [jsTrim (joinSpace (linesOf (("a  b.").data))), []] := by
  refine ⟨(table_run_rule _ _ rfl (by decide) (by decide) (by decide)).1 (by decide),
    (table_run_rule _ _ rfl (by decide) (by decide) (by decide)).2 (by decide)⟩

end E2MD
